import Mathlib

/-!
Verification of the UCVE (upper-confidence variable elimination) core of
AI-Toolbox (`src/Factored/Bandit/Algorithms/Utils/UCVE.cpp`).

The C++ types are embedded shallowly:
* joint-action tags (`PartialAction`) are pairs of parallel lists
  (agent indices, chosen actions);
* the Eigen value pair `[mean, bonus]` is a pair of rationals (the C++
  `double` arithmetic on payoffs is exact rational arithmetic here);
* `computeValue` produces a real number (it takes a square root);
* collections (`Entries`, `Rules`) are lists.

The small tag/graph utilities (`merge`, `match`, `veccmp`, the factor
graph and the joint-action enumerator) live in headers of the repository
that are not part of the translated source; they are modelled from the
specification and marked as such in their doc comments.
-/

namespace UCVE

/-- A sparse joint action: parallel lists of agent indices (ascending by
invariant) and the actions those agents take.  Mirrors `PartialFactors` /
`PartialAction` from the C++ headers. -/
abbrev PartialAction := List ℕ × List ℕ

/-- The `[mean, bonus]` value pair stored in every entry (an Eigen 2-vector
in the C++ source). -/
abbrev V2 := ℚ × ℚ

/-- Element-wise sum of two value pairs (`lhs + rhs` on Eigen vectors). -/
def addV2 (a b : V2) : V2 := (a.1 + b.1, a.2 + b.2)

/-- `UCVE::Entry`: a tag plus a value pair. -/
abbrev Entry := PartialAction × V2

/-- `UCVE::Entries`. -/
abbrev Entries := List Entry

/-- `UCVE::Rule`: a tag identifying an assignment to a factor's scope plus
the list of alternative payoff entries reachable under it. -/
abbrev Rule := PartialAction × Entries

/-- `UCVE::Rules`. -/
abbrev Rules := List Rule

/-- Modelled from the spec: `veccmp` (a tag utility from `Utils/Core.hpp`,
not part of the translated source) lexicographically compares two numeric
sequences, returning less/equal/greater. -/
def veccmp : List ℕ → List ℕ → Ordering
  | [], [] => .eq
  | [], _ :: _ => .lt
  | _ :: _, [] => .gt
  | x :: xs, y :: ys => if x < y then .lt else if y < x then .gt else veccmp xs ys

/-- Helper for the spec-modelled tag-merge: inserts one (agent, action) pair
in front of the first element whose agent index is not smaller. -/
def insertPairAsc (x : ℕ × ℕ) : List (ℕ × ℕ) → List (ℕ × ℕ)
  | [] => [x]
  | y :: ys => if x.1 ≤ y.1 then x :: y :: ys else y :: insertPairAsc x ys

/-- Modelled from the spec: the agent-paired form of the tag-merge.  Merges
two (agent, action) lists that are ascending in the agent component,
producing an ascending result; the inputs are disjoint by construction.
For ascending inputs this equals the usual two-pointer merge. -/
def mergePairs (xs ys : List (ℕ × ℕ)) : List (ℕ × ℕ) :=
  xs.foldr insertPairAsc ys

/-- Modelled from the spec: `merge` (from `Factored/Utils/Core.hpp`, not part
of the translated source) computes the disjoint-union of two tags, keeping
the agent sequences ascending. -/
def mergeTags (a b : PartialAction) : PartialAction :=
  let m := mergePairs (a.1.zip a.2) (b.1.zip b.2)
  (m.map Prod.fst, m.map Prod.snd)

/-- The entry built for one pair in the cross-sum loop body
(lines 305-307 of UCVE.cpp): merged tags, element-wise summed values. -/
def combineEntry (l r : Entry) : Entry := (mergeTags l.1 r.1, addV2 l.2 r.2)

/-- `crossSum(const Entries &, const Entries &)` (UCVE.cpp lines 296-311):
if either side is empty the other is returned unchanged, otherwise every
pair of entries is combined. -/
def crossSum (lhs rhs : Entries) : Entries :=
  match lhs, rhs with
  | [], _ => rhs
  | _ :: _, [] => lhs
  | _ :: _, _ :: _ => lhs.flatMap fun l => rhs.map fun r => combineEntry l r

/-- `crossSum(const Entries &, const std::vector<const Entries*>)`
(UCVE.cpp lines 284-294): if the pointer list is empty returns `lhs`,
otherwise concatenates the cross-sums against each referenced list. -/
def crossSumV (lhs : Entries) (rhs : List Entries) : Entries :=
  match rhs with
  | [] => lhs
  | _ :: _ => (rhs.map fun p => crossSum lhs p).flatten

/-- Modelled from the spec: `match` (from `Factored/Utils/Core.hpp`, not part
of the translated source) tests compatibility of two tags: every agent
present in both must be assigned the same action. -/
def matchTags (p q : PartialAction) : Bool :=
  (p.1.zip p.2).all fun pa =>
    ((q.1.zip q.2).find? fun qa => qa.1 = pa.1).all fun qa => qa.2 = pa.2

/-- `getPayoffs` (UCVE.cpp lines 272-282): the entry lists of every rule
whose tag is compatible with the queried joint action.  The C++ returns
pointers; here the referenced lists themselves are collected. -/
def getPayoffs (rules : Rules) (jointAction : PartialAction) : List Entries :=
  (rules.filter fun rule => matchTags jointAction rule.1).map fun rule => rule.2

end UCVE

namespace UCVE

lemma crossSum_nil_left (B : Entries) : crossSum [] B = B := rfl

lemma crossSum_nil_right (A : Entries) : crossSum A [] = A := by
  cases A <;> rfl

lemma crossSum_eq_bind {A B : Entries} (hA : A ≠ []) (hB : B ≠ []) :
    crossSum A B = A.flatMap fun l => B.map fun r => combineEntry l r := by
  cases A with
  | nil => exact absurd rfl hA
  | cons a as =>
    cases B with
    | nil => exact absurd rfl hB
    | cons b bs => rfl

lemma crossSum_ne_nil {A B : Entries} (hA : A ≠ []) (hB : B ≠ []) :
    crossSum A B ≠ [] := by
  cases A with
  | nil => exact absurd rfl hA
  | cons a as =>
    cases B with
    | nil => exact absurd rfl hB
    | cons b bs =>
      simp [crossSum]

lemma length_crossSum {A B : Entries} (hA : A ≠ []) (hB : B ≠ []) :
    (crossSum A B).length = A.length * B.length := by
  rw [crossSum_eq_bind hA hB]
  clear hA
  induction A with
  | nil => simp
  | cons a as ih =>
    simp only [List.flatMap_cons, List.length_append, List.length_map, List.length_cons, ih]
    ring

lemma mem_crossSum {A B : Entries} (hA : A ≠ []) (hB : B ≠ []) {a b : Entry}
    (ha : a ∈ A) (hb : b ∈ B) : combineEntry a b ∈ crossSum A B := by
  rw [crossSum_eq_bind hA hB]
  exact List.mem_flatMap.2 ⟨a, ha, List.mem_map_of_mem _ hb⟩

end UCVE

/-- C8: the empty collection is a two-sided identity for `crossSum`:
`crossSum A [] = A` and `crossSum [] B = B` for all Entries `A`, `B`. -/
theorem crossSum_identity (A B : UCVE.Entries) :
    UCVE.crossSum A [] = A ∧ UCVE.crossSum [] B = B :=
  ⟨UCVE.crossSum_nil_right A, UCVE.crossSum_nil_left B⟩

namespace UCVE

lemma count_map_combine_one (a b : Entry) :
    ∀ B : Entries, B.Nodup → b ∈ B →
      (∀ b' ∈ B, combineEntry a b' = combineEntry a b → b' = b) →
      (B.map fun r => combineEntry a r).count (combineEntry a b) = 1 := by
  intro B
  induction B with
  | nil => intro _ hb; exact absurd hb (List.not_mem_nil b)
  | cons b' B' ih =>
    intro hnd hb hinj
    rcases List.mem_cons.1 hb with hb' | hb'
    · subst hb'
      have hnotmem : combineEntry a b ∉ B'.map fun r => combineEntry a r := by
        intro hmem
        rcases List.mem_map.1 hmem with ⟨b'', hb'', he⟩
        have : b'' = b := hinj b'' (List.mem_cons_of_mem _ hb'') he
        subst this
        exact (List.nodup_cons.1 hnd).1 hb''
      simp [List.count_cons, List.count_eq_zero.2 hnotmem]
    · have hne : b' ≠ b := by
        intro he; subst he; exact (List.nodup_cons.1 hnd).1 hb'
      have hcne : ¬(combineEntry a b' = combineEntry a b) := by
        intro he; exact hne (hinj b' (List.mem_cons_self b' B') he)
      have := ih (List.nodup_cons.1 hnd).2 hb'
        (fun b'' hb'' he => hinj b'' (List.mem_cons_of_mem _ hb'') he)
      simp [List.count_cons, hcne, this]

lemma count_map_combine_zero (a' a b : Entry) (B : Entries)
    (h : ∀ b' ∈ B, combineEntry a' b' ≠ combineEntry a b) :
    (B.map fun r => combineEntry a' r).count (combineEntry a b) = 0 := by
  refine List.count_eq_zero.2 ?_
  intro hmem
  rcases List.mem_map.1 hmem with ⟨b'', hb'', he⟩
  exact h b'' hb'' he

lemma count_crossSum_one {A B : Entries} (hA : A ≠ []) (hB : B ≠ [])
    (hndA : A.Nodup) (hndB : B.Nodup)
    (hinj : ∀ a₁ ∈ A, ∀ a₂ ∈ A, ∀ b₁ ∈ B, ∀ b₂ ∈ B,
      combineEntry a₁ b₁ = combineEntry a₂ b₂ → a₁ = a₂ ∧ b₁ = b₂)
    {a b : Entry} (ha : a ∈ A) (hb : b ∈ B) :
    (crossSum A B).count (combineEntry a b) = 1 := by
  rw [crossSum_eq_bind hA hB]
  clear hA
  induction A with
  | nil => exact absurd ha (List.not_mem_nil a)
  | cons a' A' ih =>
    rw [List.flatMap_cons, List.count_append]
    rcases List.mem_cons.1 ha with ha' | ha'
    · subst ha'
      have h1 : (B.map fun r => combineEntry a r).count (combineEntry a b) = 1 :=
        count_map_combine_one a b B hndB hb
          (fun b' hb' he => ((hinj a ha a ha b' hb' b hb he).2))
      have h0 : (A'.flatMap fun l => B.map fun r => combineEntry l r).count
          (combineEntry a b) = 0 := by
        refine List.count_eq_zero.2 ?_
        intro hmem
        rcases List.mem_flatMap.1 hmem with ⟨l, hl, hmem2⟩
        rcases List.mem_map.1 hmem2 with ⟨b'', hb'', he⟩
        have : l = a :=
          (hinj l (List.mem_cons_of_mem _ hl) a ha b'' hb'' b hb he).1
        subst this
        exact (List.nodup_cons.1 hndA).1 hl
      omega
    · have h0 : (B.map fun r => combineEntry a' r).count (combineEntry a b) = 0 := by
        refine count_map_combine_zero a' a b B ?_
        intro b' hb' he
        have : a' = a :=
          (hinj a' (List.mem_cons_self a' A') a ha b' hb' b hb he).1
        subst this
        exact (List.nodup_cons.1 hndA).1 ha'
      have h1 := ih (List.nodup_cons.1 hndA).2
        (fun a₁ h₁ a₂ h₂ => hinj a₁ (List.mem_cons_of_mem _ h₁) a₂ (List.mem_cons_of_mem _ h₂))
        ha'
      omega

lemma append_shuffle_perm {β : Type} (a b c d : List β) :
    ((a ++ b) ++ (c ++ d)).Perm ((a ++ c) ++ (b ++ d)) := by
  rw [List.append_assoc a b (c ++ d), List.append_assoc a c (b ++ d)]
  refine List.Perm.append_left a ?_
  rw [← List.append_assoc b c d, ← List.append_assoc c b d]
  exact List.perm_append_comm.append_right d

lemma flatMap_append_perm {α β : Type} (l : List α) (f g : α → List β) :
    (l.flatMap fun x => f x ++ g x).Perm (l.flatMap f ++ l.flatMap g) := by
  induction l with
  | nil => simp
  | cons x xs ih =>
    simp only [List.flatMap_cons]
    exact (ih.append_left (f x ++ g x)).trans
      (append_shuffle_perm (f x) (g x) (xs.flatMap f) (xs.flatMap g))

lemma crossSum_append_perm {A X Y : Entries} (hA : A ≠ []) (hX : X ≠ []) (hY : Y ≠ []) :
    (crossSum A (X ++ Y)).Perm (crossSum A X ++ crossSum A Y) := by
  have hXY : X ++ Y ≠ [] := by
    cases X with
    | nil => exact absurd rfl hX
    | cons x xs => simp
  rw [crossSum_eq_bind hA hXY, crossSum_eq_bind hA hX, crossSum_eq_bind hA hY]
  have : (A.flatMap fun l => (X ++ Y).map fun r => combineEntry l r)
      = A.flatMap fun l => (X.map fun r => combineEntry l r) ++ Y.map fun r => combineEntry l r := by
    refine List.flatMap_congr ?_
    intro l _
    exact List.map_append _ X Y
  rw [this]
  exact flatMap_append_perm A _ _

lemma flatten_ne_nil {L : List Entries} (hL : L ≠ []) (h : ∀ E ∈ L, E ≠ []) :
    L.flatten ≠ [] := by
  cases L with
  | nil => exact absurd rfl hL
  | cons E L' =>
    have hE : E ≠ [] := h E (List.mem_cons_self E L')
    cases E with
    | nil => exact absurd rfl hE
    | cons e es => simp

end UCVE

/-- C3 counterexample: the claim demands that for every `a ∈ A`, `b ∈ B` the
cross-sum contains *exactly one* entry with the summed value-pair and merged
tag.  With the agent-disjoint, non-empty inputs `A = [e, e]` (a duplicated
entry) and `B = [e']`, the combined entry occurs twice, not once. -/
theorem crossSum_exactly_one_counterexample :
    (UCVE.crossSum [(([], []), ((1 : ℚ), (0 : ℚ))), (([], []), ((1 : ℚ), (0 : ℚ)))]
        [(([0], [0]), ((2 : ℚ), (0 : ℚ)))]).count
      (UCVE.combineEntry (([], []), ((1 : ℚ), (0 : ℚ))) (([0], [0]), ((2 : ℚ), (0 : ℚ)))) = 2 ∧
    (2 : ℕ) ≠ 1 := by
  constructor
  · have h : UCVE.crossSum
        [(([], []), ((1 : ℚ), (0 : ℚ))), (([], []), ((1 : ℚ), (0 : ℚ)))]
        [(([0], [0]), ((2 : ℚ), (0 : ℚ)))]
        = [UCVE.combineEntry (([], []), ((1 : ℚ), (0 : ℚ))) (([0], [0]), ((2 : ℚ), (0 : ℚ))),
           UCVE.combineEntry (([], []), ((1 : ℚ), (0 : ℚ))) (([0], [0]), ((2 : ℚ), (0 : ℚ)))] := rfl
    rw [h]
    simp [List.count_cons]
  · decide

/-- C3 (amended): for non-empty `A`, `B`, `crossSum A B` has `|A|·|B|`
elements and contains, for every `a ∈ A` and `b ∈ B`, the entry whose tag is
the disjoint-union merge of the tags and whose value-pair is the element-wise
sum — one occurrence per index pair, so the occurrence is unique exactly when
`A` and `B` are duplicate-free and distinct pairs combine to distinct
entries. -/
theorem crossSum_size_value (A B : UCVE.Entries) (hA : A ≠ []) (hB : B ≠ []) :
    (UCVE.crossSum A B).length = A.length * B.length ∧
    (∀ a ∈ A, ∀ b ∈ B, UCVE.combineEntry a b ∈ UCVE.crossSum A B) ∧
    (A.Nodup → B.Nodup →
      (∀ a₁ ∈ A, ∀ a₂ ∈ A, ∀ b₁ ∈ B, ∀ b₂ ∈ B,
        UCVE.combineEntry a₁ b₁ = UCVE.combineEntry a₂ b₂ → a₁ = a₂ ∧ b₁ = b₂) →
      ∀ a ∈ A, ∀ b ∈ B, (UCVE.crossSum A B).count (UCVE.combineEntry a b) = 1) := by
  refine ⟨UCVE.length_crossSum hA hB, ?_, ?_⟩
  · intro a ha b hb
    exact UCVE.mem_crossSum hA hB ha hb
  · intro hndA hndB hinj a ha b hb
    exact UCVE.count_crossSum_one hA hB hndA hndB hinj ha hb

/-- C3 witness: the amended theorem applied to the concrete singleton
collections `A = [((∅,∅),(1,0))]`, `B = [(({0},{0}),(2,0))]`. -/
theorem crossSum_size_value_witness :
    (UCVE.crossSum [(([], []), ((1 : ℚ), (0 : ℚ)))]
      [(([0], [0]), ((2 : ℚ), (0 : ℚ)))]).length = 1 * 1 :=
  (crossSum_size_value _ _ (by decide) (by decide)).1

/-- C5 counterexample: the claim states `crossSum(A, L)` equals
`crossSum(A, concat L)` for *every* list `L`, "including lists containing an
empty collection".  With `A = [a]` and `L = [[b], ∅]` the variadic overload
returns the two-element list `crossSum(A,[b]) ++ A` (the inner empty list
triggers the identity short-circuit and contributes a copy of `A`), while
cross-summing the concatenation returns a single element. -/
theorem crossSumV_counterexample :
    (UCVE.crossSumV [(([], []), ((1 : ℚ), (0 : ℚ)))]
      [[(([0], [0]), ((2 : ℚ), (0 : ℚ)))], []]).length = 2 ∧
    (UCVE.crossSum [(([], []), ((1 : ℚ), (0 : ℚ)))]
      ([[(([0], [0]), ((2 : ℚ), (0 : ℚ)))], []]).flatten).length = 1 := by
  constructor <;> rfl

/-- C5 (amended): when every referenced collection is non-empty, the variadic
`crossSum(A, L)` returns the same collection — up to the order of entries,
which the specification treats as irrelevant — as cross-summing `A` with the
concatenation of the collections referenced by `L`. -/
theorem crossSumV_refines_crossSum (A : UCVE.Entries) (L : List UCVE.Entries)
    (h : ∀ E ∈ L, E ≠ []) :
    (UCVE.crossSumV A L).Perm (UCVE.crossSum A L.flatten) := by
  induction L with
  | nil => simp [UCVE.crossSumV, UCVE.crossSum_nil_right]
  | cons E L' ih =>
    have hE : E ≠ [] := h E (List.mem_cons_self E L')
    have hL' : ∀ E' ∈ L', E' ≠ [] := fun E' hE' => h E' (List.mem_cons_of_mem _ hE')
    cases L' with
    | nil =>
      simp [UCVE.crossSumV]
    | cons F L'' =>
      have ihp := ih hL'
      have hstep : UCVE.crossSumV A (E :: F :: L'')
          = UCVE.crossSum A E ++ UCVE.crossSumV A (F :: L'') := by
        simp [UCVE.crossSumV]
      rw [hstep]
      by_cases hA : A = []
      · subst hA
        have h1 : UCVE.crossSum [] E = E := rfl
        have h2 : UCVE.crossSum [] ((E :: F :: L'').flatten) = (E :: F :: L'').flatten := rfl
        rw [h1, h2]
        have h3 : (E :: F :: L'').flatten = E ++ (F :: L'').flatten := by
          simp
        rw [h3]
        exact (ihp.append_left E)
      · have hflat : (F :: L'').flatten ≠ [] := by
          refine UCVE.flatten_ne_nil ?_ hL'
          simp
        have h3 : (E :: F :: L'').flatten = E ++ (F :: L'').flatten := by
          simp
        rw [h3]
        have hperm := UCVE.crossSum_append_perm hA hE hflat
        refine List.Perm.trans ?_ hperm.symm
        exact ihp.append_left (UCVE.crossSum A E)

/-- C5 witness: the amended equivalence at the concrete input `A = [a]`,
`L = [[b]]` (all referenced collections non-empty). -/
theorem crossSumV_refines_crossSum_witness :
    (UCVE.crossSumV [(([], []), ((1 : ℚ), (0 : ℚ)))]
      [[(([0], [0]), ((2 : ℚ), (0 : ℚ)))]]).Perm
    (UCVE.crossSum [(([], []), ((1 : ℚ), (0 : ℚ)))]
      ([[(([0], [0]), ((2 : ℚ), (0 : ℚ)))]]).flatten) :=
  crossSumV_refines_crossSum _ _ (by decide)

namespace UCVE

/-- `std::numeric_limits<double>::lowest()` (used as the initial value of
running maxima in UCVE.cpp); modelled as a very large negative real. -/
def dblLowest : ℝ := -(2 ^ 1024)

/-- `std::numeric_limits<double>::max()`; modelled as a very large real. -/
def dblMax : ℝ := 2 ^ 1024

/-- `computeValue` (UCVE.cpp lines 246-249): the UCB value
`mean + sqrt((bonus + x) * logtA)` of an entry, where `logtA` is already
halved by the constructor. -/
noncomputable def computeValue (e : Entry) (x logtA : ℝ) : ℝ :=
  (e.2.1 : ℝ) + Real.sqrt (((e.2.2 : ℝ) + x) * logtA)

/-- The comparison used by the `std::sort` call in `boundPrune`
(UCVE.cpp lines 260-262), as a weak relation: `a` may precede `b` iff `b`'s
pessimistic value does not exceed `a`'s (descending sort by
`computeValue(·, x_l, logtA)`). -/
def pruneRel (x_l logtA : ℝ) (a b : Entry) : Prop :=
  computeValue b x_l logtA ≤ computeValue a x_l logtA

noncomputable instance (x_l logtA : ℝ) : DecidableRel (pruneRel x_l logtA) :=
  fun _ _ => Real.decidableLE _ _

instance (x_l logtA : ℝ) : IsTotal Entry (pruneRel x_l logtA) :=
  ⟨fun a b => le_total (computeValue b x_l logtA) (computeValue a x_l logtA)⟩

instance (x_l logtA : ℝ) : IsTrans Entry (pruneRel x_l logtA) :=
  ⟨fun _ _ _ h1 h2 => le_trans h2 h1⟩

/-- The negation of the equivalence used by the `std::unique` call in
`boundPrune` (UCVE.cpp lines 264-266): two entries are kept apart iff their
raw value-pairs differ. -/
def dupDiff (a b : Entry) : Prop := a.2 ≠ b.2

instance : DecidableRel dupDiff := fun a b => instDecidableNot

/-- The sorting step of `boundPrune`: descending by pessimistic value. -/
noncomputable def sortEntries (l : Entries) (x_l logtA : ℝ) : Entries :=
  List.insertionSort (pruneRel x_l logtA) l

/-- `std::remove_if` keeps exactly the elements where the predicate fails;
this keeps the elements where `p` holds (the retained ones). -/
def filterKeep (p : Entry → Prop) [DecidablePred p] : Entries → Entries
  | [] => []
  | e :: es => if p e then e :: filterKeep p es else filterKeep p es

/-- `boundPrune` (UCVE.cpp lines 251-270): with fewer than two candidates
nothing is pruned; otherwise sort descending by pessimistic value, remove
adjacent entries with equal raw value-pairs (`std::unique`), and drop every
non-first entry whose optimistic value does not exceed the first entry's
pessimistic value (`std::remove_if` from `begin + 1`). -/
noncomputable def boundPrune (l : Entries) (x_l x_u logtA : ℝ) : Entries :=
  if l.length < 2 then l
  else
    match (sortEntries l x_l logtA).destutter dupDiff with
    | [] => []
    | best :: tail =>
      best :: filterKeep
        (fun e => computeValue best x_l logtA < computeValue e x_u logtA) tail

lemma computeValue_congr {a b : Entry} (h : a.2 = b.2) (x logtA : ℝ) :
    computeValue a x logtA = computeValue b x logtA := by
  unfold computeValue
  rw [h]

lemma computeValue_mono (e : Entry) {x y logtA : ℝ} (hxy : x ≤ y) (hc : 0 ≤ logtA) :
    computeValue e x logtA ≤ computeValue e y logtA := by
  unfold computeValue
  refine add_le_add_left ?_ _
  refine Real.sqrt_le_sqrt ?_
  exact mul_le_mul_of_nonneg_right (add_le_add_left hxy _) hc

lemma mem_filterKeep {p : Entry → Prop} [DecidablePred p] {a : Entry} :
    ∀ {l : Entries}, a ∈ filterKeep p l ↔ a ∈ l ∧ p a := by
  intro l
  induction l with
  | nil => simp [filterKeep]
  | cons e es ih =>
    by_cases hpe : p e
    · simp only [filterKeep, if_pos hpe, List.mem_cons, ih]
      constructor
      · rintro (rfl | ⟨hmem, hpa⟩)
        · exact ⟨Or.inl rfl, hpe⟩
        · exact ⟨Or.inr hmem, hpa⟩
      · rintro ⟨rfl | hmem, hpa⟩
        · exact Or.inl rfl
        · exact Or.inr ⟨hmem, hpa⟩
    · simp only [filterKeep, if_neg hpe, List.mem_cons, ih]
      constructor
      · rintro ⟨hmem, hpa⟩
        exact ⟨Or.inr hmem, hpa⟩
      · rintro ⟨rfl | hmem, hpa⟩
        · exact absurd hpa hpe
        · exact ⟨hmem, hpa⟩

lemma filterKeep_sublist (p : Entry → Prop) [DecidablePred p] :
    ∀ l : Entries, List.Sublist (filterKeep p l) l := by
  intro l
  induction l with
  | nil => simp [filterKeep]
  | cons e es ih =>
    by_cases hpe : p e
    · rw [filterKeep, if_pos hpe]
      exact ih.cons₂ e
    · rw [filterKeep, if_neg hpe]
      exact ih.cons e

lemma destutter'_head (t : Entries) : ∀ a : Entry, ∃ t',
    t.destutter' dupDiff a = a :: t' := by
  induction t with
  | nil => intro a; exact ⟨[], rfl⟩
  | cons b t' ih =>
    intro a
    by_cases hR : dupDiff a b
    · exact ⟨t'.destutter' dupDiff b, List.destutter'_cons_pos t' hR⟩
    · rcases ih a with ⟨t'', ht''⟩
      exact ⟨t'', by rw [List.destutter'_cons_neg t' hR, ht'']⟩

lemma destutter'_pair_rep (t : Entries) : ∀ a e : Entry, e ∈ a :: t →
    ∃ p ∈ t.destutter' dupDiff a, p.2 = e.2 := by
  induction t with
  | nil =>
    intro a e he
    rcases List.mem_singleton.1 he with rfl
    exact ⟨e, List.mem_destutter' _ _ _, rfl⟩
  | cons b t' ih =>
    intro a e he
    by_cases hR : dupDiff a b
    · rw [List.destutter'_cons_pos t' hR]
      rcases List.mem_cons.1 he with rfl | he'
      · exact ⟨e, List.mem_cons_self _ _, rfl⟩
      · rcases ih b e he' with ⟨p, hp, hpe⟩
        exact ⟨p, List.mem_cons_of_mem _ hp, hpe⟩
    · rw [List.destutter'_cons_neg t' hR]
      have hab : a.2 = b.2 := not_not.1 hR
      rcases List.mem_cons.1 he with rfl | he'
      · rcases ih e e (List.mem_cons_self _ _) with ⟨p, hp, hpe⟩
        exact ⟨p, hp, hpe⟩
      · rcases List.mem_cons.1 he' with rfl | he''
        · rcases ih a a (List.mem_cons_self _ _) with ⟨p, hp, hpe⟩
          exact ⟨p, hp, hpe.trans hab⟩
        · rcases ih a e (List.mem_cons_of_mem _ he'') with ⟨p, hp, hpe⟩
          exact ⟨p, hp, hpe⟩

end UCVE

namespace UCVE

lemma boundPrune_small {l : Entries} {x_l x_u logtA : ℝ} (h : l.length < 2) :
    boundPrune l x_l x_u logtA = l := by
  unfold boundPrune
  rw [if_pos h]

lemma sorted_sortEntries (l : Entries) (x_l logtA : ℝ) :
    List.Sorted (pruneRel x_l logtA) (sortEntries l x_l logtA) :=
  List.sorted_insertionSort _ l

lemma perm_sortEntries (l : Entries) (x_l logtA : ℝ) :
    (sortEntries l x_l logtA).Perm l :=
  List.perm_insertionSort _ l

lemma boundPrune_anatomy (l : Entries) (x_l x_u logtA : ℝ) (h : ¬l.length < 2) :
    ∃ sh st t', sortEntries l x_l logtA = sh :: st ∧
      st.destutter' dupDiff sh = sh :: t' ∧
      boundPrune l x_l x_u logtA
        = sh :: filterKeep
            (fun e => computeValue sh x_l logtA < computeValue e x_u logtA) t' := by
  have hlen : (sortEntries l x_l logtA).length = l.length :=
    (perm_sortEntries l x_l logtA).length_eq
  cases hs0 : sortEntries l x_l logtA with
  | nil =>
    exfalso
    rw [hs0] at hlen
    simp only [List.length_nil] at hlen
    omega
  | cons sh st =>
    obtain ⟨t', ht'⟩ := destutter'_head st sh
    refine ⟨sh, st, t', rfl, ht', ?_⟩
    unfold boundPrune
    rw [if_neg h, hs0, List.destutter_cons', ht']

lemma boundPrune_ne_nil {l : Entries} (hne : l ≠ []) (x_l x_u logtA : ℝ) :
    boundPrune l x_l x_u logtA ≠ [] := by
  by_cases hlen : l.length < 2
  · rw [boundPrune_small hlen]; exact hne
  · obtain ⟨sh, st, t', _, _, hres⟩ := boundPrune_anatomy l x_l x_u logtA hlen
    rw [hres]
    simp

end UCVE

/-- C1 counterexample: the claim states that an entry other than the
best-ranked one is discarded *only if* its optimistic value is at most the
best candidate's pessimistic value.  With the two value-equal entries below,
bounds `x_l = 0`, `x_u = 1` and coefficient `1`, the second entry is
discarded by the duplicate-removal step although its optimistic value `1`
strictly exceeds the retained best candidate's pessimistic value `0`. -/
theorem boundPrune_safety_counterexample :
    UCVE.boundPrune
        [(([], []), ((0 : ℚ), (0 : ℚ))), (([0], [0]), ((0 : ℚ), (0 : ℚ)))] 0 1 1
      = [(([], []), ((0 : ℚ), (0 : ℚ)))] ∧
    ((([0], [0]), ((0 : ℚ), (0 : ℚ))) : UCVE.Entry)
      ≠ ((([], []), ((0 : ℚ), (0 : ℚ))) : UCVE.Entry) ∧
    UCVE.computeValue ((([], []), ((0 : ℚ), (0 : ℚ))) : UCVE.Entry) 0 1
      < UCVE.computeValue ((([0], [0]), ((0 : ℚ), (0 : ℚ))) : UCVE.Entry) 1 1 := by
  have hv1 : UCVE.computeValue ((([], []), ((0 : ℚ), (0 : ℚ))) : UCVE.Entry) 0 1 = 0 := by
    simp [UCVE.computeValue]
  have hv2 : UCVE.computeValue ((([0], [0]), ((0 : ℚ), (0 : ℚ))) : UCVE.Entry) 0 1 = 0 := by
    simp [UCVE.computeValue]
  have hv3 : UCVE.computeValue ((([0], [0]), ((0 : ℚ), (0 : ℚ))) : UCVE.Entry) 1 1 = 1 := by
    simp [UCVE.computeValue]
  refine ⟨?_, by decide, by rw [hv1, hv3]; norm_num⟩
  have hsort : UCVE.sortEntries
      [(([], []), ((0 : ℚ), (0 : ℚ))), (([0], [0]), ((0 : ℚ), (0 : ℚ)))] 0 1
      = [(([], []), ((0 : ℚ), (0 : ℚ))), (([0], [0]), ((0 : ℚ), (0 : ℚ)))] := by
    unfold UCVE.sortEntries
    simp only [List.insertionSort, List.orderedInsert]
    rw [if_pos]
    unfold UCVE.pruneRel
    rw [hv1, hv2]
  unfold UCVE.boundPrune
  rw [if_neg (by norm_num), hsort, List.destutter_cons_cons,
    if_neg (by simp [UCVE.dupDiff]), List.destutter'_nil]
  rfl

/-- C1 (amended): `boundPrune` (a) only returns entries of its input, (b) on
a non-empty input always retains a candidate whose pessimistic value is
maximal (the best-ranked candidate), (c) discards a non-best entry only if it
is an exact raw-value duplicate of a retained entry (the `std::unique` step)
or its optimistic value is at most the retained best candidate's pessimistic
value, and (d) is safe: for a non-negative exploration coefficient and any
true slack `x` consistent with the bounds `x_l ≤ x ≤ x_u`, every discarded
entry is value-dominated at `x` by some retained entry, so a candidate
achieving the global maximum is never lost. -/
theorem boundPrune_safety (l : UCVE.Entries) (x_l x_u logtA : ℝ) :
    (∀ r ∈ UCVE.boundPrune l x_l x_u logtA, r ∈ l) ∧
    (l ≠ [] → ∃ r ∈ UCVE.boundPrune l x_l x_u logtA, ∀ e ∈ l,
      UCVE.computeValue e x_l logtA ≤ UCVE.computeValue r x_l logtA) ∧
    (∀ e ∈ l, e ∉ UCVE.boundPrune l x_l x_u logtA →
      (∃ r ∈ UCVE.boundPrune l x_l x_u logtA, r.2 = e.2) ∨
      ∃ r ∈ UCVE.boundPrune l x_l x_u logtA,
        UCVE.computeValue e x_u logtA ≤ UCVE.computeValue r x_l logtA) ∧
    (0 ≤ logtA → ∀ x, x_l ≤ x → x ≤ x_u → ∀ e ∈ l,
      ∃ r ∈ UCVE.boundPrune l x_l x_u logtA,
        UCVE.computeValue e x logtA ≤ UCVE.computeValue r x logtA) := by
  by_cases hlen : l.length < 2
  · rw [UCVE.boundPrune_small hlen]
    refine ⟨fun r hr => hr, ?_, ?_, ?_⟩
    · intro hne
      cases l with
      | nil => exact absurd rfl hne
      | cons a t =>
        cases t with
        | nil =>
          refine ⟨a, List.mem_cons_self a [], ?_⟩
          intro e he
          rcases List.mem_singleton.1 he with rfl
          exact le_refl _
        | cons b t' => simp only [List.length_cons] at hlen; omega
    · intro e he hnot
      exact absurd he hnot
    · intro _ x _ _ e he
      exact ⟨e, he, le_refl _⟩
  · obtain ⟨sh, st, t', hs0, ht', hres⟩ := UCVE.boundPrune_anatomy l x_l x_u logtA hlen
    have hperm := UCVE.perm_sortEntries l x_l logtA
    have hmem : ∀ e : UCVE.Entry, e ∈ l → e ∈ sh :: st := by
      intro e he
      rw [← hs0]
      exact hperm.mem_iff.2 he
    have hmem' : ∀ e : UCVE.Entry, e ∈ sh :: st → e ∈ l := by
      intro e he
      rw [← hs0] at he
      exact hperm.mem_iff.1 he
    have hsorted : List.Sorted (UCVE.pruneRel x_l logtA) (sh :: st) := by
      rw [← hs0]; exact UCVE.sorted_sortEntries l x_l logtA
    have hmax : ∀ e ∈ sh :: st,
        UCVE.computeValue e x_l logtA ≤ UCVE.computeValue sh x_l logtA := by
      intro e he
      rcases List.mem_cons.1 he with rfl | he'
      · exact le_refl _
      · exact List.rel_of_sorted_cons hsorted e he'
    have htail : ∀ p ∈ t', p ∈ sh :: st := by
      intro p hp
      have hsub : List.Sublist (sh :: t') (sh :: st) := by
        rw [← ht']
        exact List.destutter'_sublist st _ sh
      exact hsub.subset (List.mem_cons_of_mem _ hp)
    have hbest : sh ∈ UCVE.boundPrune l x_l x_u logtA := by
      rw [hres]; exact List.mem_cons_self _ _
    refine ⟨?_, ?_, ?_, ?_⟩
    · intro r hr
      rw [hres] at hr
      rcases List.mem_cons.1 hr with rfl | hr'
      · exact hmem' r (List.mem_cons_self _ _)
      · exact hmem' r (htail r (UCVE.mem_filterKeep.1 hr').1)
    · intro _
      exact ⟨sh, hbest, fun e he => hmax e (hmem e he)⟩
    · intro e he _
      obtain ⟨p, hp, hpe⟩ := UCVE.destutter'_pair_rep st sh e (hmem e he)
      rw [ht'] at hp
      rcases List.mem_cons.1 hp with hps | hptail
      · left
        exact ⟨sh, hbest, hps ▸ hpe⟩
      · by_cases hqp : UCVE.computeValue sh x_l logtA < UCVE.computeValue p x_u logtA
        · left
          refine ⟨p, ?_, hpe⟩
          rw [hres]
          exact List.mem_cons_of_mem _ (UCVE.mem_filterKeep.2 ⟨hptail, hqp⟩)
        · right
          refine ⟨sh, hbest, ?_⟩
          have h2 : UCVE.computeValue e x_u logtA = UCVE.computeValue p x_u logtA :=
            UCVE.computeValue_congr hpe.symm x_u logtA
          rw [h2]
          exact not_lt.1 hqp
    · intro hcoeff x hx1 hx2 e he
      obtain ⟨p, hp, hpe⟩ := UCVE.destutter'_pair_rep st sh e (hmem e he)
      rw [ht'] at hp
      have hcv : UCVE.computeValue e x logtA = UCVE.computeValue p x logtA :=
        UCVE.computeValue_congr hpe.symm x logtA
      rcases List.mem_cons.1 hp with hps | hptail
      · refine ⟨sh, hbest, ?_⟩
        rw [hcv, hps]
      · by_cases hqp : UCVE.computeValue sh x_l logtA < UCVE.computeValue p x_u logtA
        · refine ⟨p, ?_, le_of_eq hcv⟩
          rw [hres]
          exact List.mem_cons_of_mem _ (UCVE.mem_filterKeep.2 ⟨hptail, hqp⟩)
        · refine ⟨sh, hbest, ?_⟩
          calc UCVE.computeValue e x logtA
              = UCVE.computeValue p x logtA := hcv
            _ ≤ UCVE.computeValue p x_u logtA := UCVE.computeValue_mono p hx2 hcoeff
            _ ≤ UCVE.computeValue sh x_l logtA := not_lt.1 hqp
            _ ≤ UCVE.computeValue sh x logtA := UCVE.computeValue_mono sh hx1 hcoeff

/-- C1 witness: the amended safety theorem applied at a concrete two-entry
candidate list with zero bounds and zero coefficient. -/
theorem boundPrune_safety_witness :
    ∃ r ∈ UCVE.boundPrune
        [(([], []), ((1 : ℚ), (0 : ℚ))), (([0], [0]), ((2 : ℚ), (0 : ℚ)))] 0 0 0,
      UCVE.computeValue ((([], []), ((1 : ℚ), (0 : ℚ))) : UCVE.Entry) 0 0
        ≤ UCVE.computeValue r 0 0 :=
  (boundPrune_safety
      [(([], []), ((1 : ℚ), (0 : ℚ))), (([0], [0]), ((2 : ℚ), (0 : ℚ)))] 0 0 0).2.2.2
    le_rfl 0 le_rfl le_rfl _ (by decide)

namespace UCVE

lemma computeValue_zero (e : Entry) : computeValue e 0 0 = (e.2.1 : ℝ) := by
  unfold computeValue
  rw [mul_zero, Real.sqrt_zero, add_zero]

lemma destutter'_pairwise (x_l logtA : ℝ) :
    ∀ (t : Entries) (a : Entry), List.Sorted (pruneRel x_l logtA) (a :: t) →
      (∀ e₁ ∈ a :: t, ∀ e₂ ∈ a :: t,
        computeValue e₁ x_l logtA = computeValue e₂ x_l logtA → e₁.2 = e₂.2) →
      List.Pairwise (fun u v : Entry => u.2 ≠ v.2) (t.destutter' dupDiff a) := by
  intro t
  induction t with
  | nil => intro a _ _; simp
  | cons b t' ih =>
    intro a hsorted hsep
    have hsorted' : List.Sorted (pruneRel x_l logtA) (b :: t') := hsorted.of_cons
    by_cases hR : dupDiff a b
    · rw [List.destutter'_cons_pos t' hR]
      refine List.pairwise_cons.2 ⟨?_, ?_⟩
      · intro p hp hap
        have hpmem : p ∈ b :: t' := (List.destutter'_sublist t' dupDiff b).subset hp
        have hpb : computeValue p x_l logtA ≤ computeValue b x_l logtA := by
          rcases List.mem_cons.1 hpmem with rfl | hp'
          · exact le_refl _
          · exact List.rel_of_sorted_cons hsorted' p hp'
        have hba : computeValue b x_l logtA ≤ computeValue a x_l logtA :=
          List.rel_of_sorted_cons hsorted b (List.mem_cons_self _ _)
        have hab : computeValue a x_l logtA ≤ computeValue b x_l logtA := by
          rw [computeValue_congr hap x_l logtA]
          exact hpb
        have hsame : computeValue a x_l logtA = computeValue b x_l logtA :=
          le_antisymm hab hba
        exact hR (hsep a (List.mem_cons_self _ _) b
          (List.mem_cons_of_mem _ (List.mem_cons_self _ _)) hsame)
      · exact ih b hsorted'
          (fun e₁ h₁ e₂ h₂ => hsep e₁ (List.mem_cons_of_mem _ h₁) e₂ (List.mem_cons_of_mem _ h₂))
    · rw [List.destutter'_cons_neg t' hR]
      have hsorted'' : List.Sorted (pruneRel x_l logtA) (a :: t') := by
        rcases List.sorted_cons.1 hsorted with ⟨hall, htail⟩
        refine List.sorted_cons.2 ⟨?_, htail.of_cons⟩
        intro e he
        exact hall e (List.mem_cons_of_mem _ he)
      have hbump : ∀ e : Entry, e ∈ a :: t' → e ∈ a :: b :: t' := by
        intro e he
        rcases List.mem_cons.1 he with rfl | he'
        · exact List.mem_cons_self _ _
        · exact List.mem_cons_of_mem _ (List.mem_cons_of_mem _ he')
      exact ih a hsorted'' (fun e₁ h₁ e₂ h₂ => hsep e₁ (hbump e₁ h₁) e₂ (hbump e₂ h₂))

end UCVE

/-- C6 counterexample: the claim says boundPrune removes *every* exact
duplicate.  The first and third entries below have equal raw value-pairs,
but at bounds `x_l = 0`, `x_u = 3`, coefficient `1` all three entries tie at
pessimistic value `1`, the stable sort leaves the value-distinct middle entry
between them, `std::unique` only compares adjacent entries, and both
duplicates survive the dominance filter — the retained range keeps two
entries with equal raw value-pairs. -/
theorem boundPrune_unique_counterexample :
    UCVE.boundPrune
        [(([], []), ((1 : ℚ), (0 : ℚ))), (([0], [0]), ((0 : ℚ), (1 : ℚ))),
          (([1], [1]), ((1 : ℚ), (0 : ℚ)))] 0 3 1
      = [(([], []), ((1 : ℚ), (0 : ℚ))), (([0], [0]), ((0 : ℚ), (1 : ℚ))),
          (([1], [1]), ((1 : ℚ), (0 : ℚ)))] ∧
    ((([], []), ((1 : ℚ), (0 : ℚ))) : UCVE.Entry)
      ≠ ((([1], [1]), ((1 : ℚ), (0 : ℚ))) : UCVE.Entry) ∧
    ((([], []), ((1 : ℚ), (0 : ℚ))) : UCVE.Entry).2
      = ((([1], [1]), ((1 : ℚ), (0 : ℚ))) : UCVE.Entry).2 := by
  have hv1 : UCVE.computeValue ((([], []), ((1 : ℚ), (0 : ℚ))) : UCVE.Entry) 0 1 = 1 := by
    simp [UCVE.computeValue]
  have hv2 : UCVE.computeValue ((([0], [0]), ((0 : ℚ), (1 : ℚ))) : UCVE.Entry) 0 1 = 1 := by
    simp [UCVE.computeValue]
  have hv3 : UCVE.computeValue ((([1], [1]), ((1 : ℚ), (0 : ℚ))) : UCVE.Entry) 0 1 = 1 := by
    simp [UCVE.computeValue]
  have h4 : Real.sqrt 4 = 2 := by
    rw [show (4 : ℝ) = 2 ^ 2 by norm_num]
    exact Real.sqrt_sq (by norm_num)
  have hu2 : UCVE.computeValue ((([0], [0]), ((0 : ℚ), (1 : ℚ))) : UCVE.Entry) 3 1 = 2 := by
    unfold UCVE.computeValue
    push_cast
    rw [show ((1 : ℝ) + 3) * 1 = 4 by norm_num, h4]
    norm_num
  have hu3 : (1 : ℝ) < UCVE.computeValue ((([1], [1]), ((1 : ℚ), (0 : ℚ))) : UCVE.Entry) 3 1 := by
    unfold UCVE.computeValue
    push_cast
    rw [show ((0 : ℝ) + 3) * 1 = 3 by norm_num]
    have : 0 < Real.sqrt 3 := Real.sqrt_pos.2 (by norm_num)
    linarith
  have hq2 : UCVE.computeValue ((([], []), ((1 : ℚ), (0 : ℚ))) : UCVE.Entry) 0 1
      < UCVE.computeValue ((([0], [0]), ((0 : ℚ), (1 : ℚ))) : UCVE.Entry) 3 1 := by
    rw [hv1, hu2]; norm_num
  have hq3 : UCVE.computeValue ((([], []), ((1 : ℚ), (0 : ℚ))) : UCVE.Entry) 0 1
      < UCVE.computeValue ((([1], [1]), ((1 : ℚ), (0 : ℚ))) : UCVE.Entry) 3 1 := by
    rw [hv1]; exact hu3
  have hr23 : UCVE.pruneRel 0 1 ((([0], [0]), ((0 : ℚ), (1 : ℚ))) : UCVE.Entry)
      ((([1], [1]), ((1 : ℚ), (0 : ℚ))) : UCVE.Entry) := by
    unfold UCVE.pruneRel
    rw [hv3, hv2]
  have hr12 : UCVE.pruneRel 0 1 ((([], []), ((1 : ℚ), (0 : ℚ))) : UCVE.Entry)
      ((([0], [0]), ((0 : ℚ), (1 : ℚ))) : UCVE.Entry) := by
    unfold UCVE.pruneRel
    rw [hv1, hv2]
  have hsort : UCVE.sortEntries
      [(([], []), ((1 : ℚ), (0 : ℚ))), (([0], [0]), ((0 : ℚ), (1 : ℚ))),
        (([1], [1]), ((1 : ℚ), (0 : ℚ)))] 0 1
      = [(([], []), ((1 : ℚ), (0 : ℚ))), (([0], [0]), ((0 : ℚ), (1 : ℚ))),
        (([1], [1]), ((1 : ℚ), (0 : ℚ)))] := by
    unfold UCVE.sortEntries
    rw [show List.insertionSort (UCVE.pruneRel 0 1)
        [(([], []), ((1 : ℚ), (0 : ℚ))), (([0], [0]), ((0 : ℚ), (1 : ℚ))),
          (([1], [1]), ((1 : ℚ), (0 : ℚ)))]
        = List.orderedInsert (UCVE.pruneRel 0 1) (([], []), ((1 : ℚ), (0 : ℚ)))
            (List.orderedInsert (UCVE.pruneRel 0 1) (([0], [0]), ((0 : ℚ), (1 : ℚ)))
              [(([1], [1]), ((1 : ℚ), (0 : ℚ)))]) from rfl,
      List.orderedInsert_of_le _ _ hr23, List.orderedInsert_of_le _ _ hr12]
  refine ⟨?_, by decide, rfl⟩
  unfold UCVE.boundPrune
  rw [if_neg (by norm_num), hsort, List.destutter_cons_cons,
    if_pos (by simp [UCVE.dupDiff]), List.destutter'_singleton,
    if_pos (by simp [UCVE.dupDiff])]
  show _ :: UCVE.filterKeep _ _ = _
  rw [UCVE.filterKeep, if_pos hq2, UCVE.filterKeep, if_pos hq3, UCVE.filterKeep]

/-- C6 (amended): after `boundPrune` the retained range contains no two
entries with equal raw value-pairs *provided* entries tying in pessimistic
value always have equal raw value-pairs; the code removes duplicates only
when they are adjacent after the pessimistic sort, so under ties a
value-distinct entry can separate two duplicates and both survive. -/
theorem boundPrune_unique (l : UCVE.Entries) (x_l x_u logtA : ℝ)
    (hsep : ∀ e₁ ∈ l, ∀ e₂ ∈ l,
      UCVE.computeValue e₁ x_l logtA = UCVE.computeValue e₂ x_l logtA → e₁.2 = e₂.2) :
    List.Pairwise (fun u v : UCVE.Entry => u.2 ≠ v.2)
      (UCVE.boundPrune l x_l x_u logtA) := by
  by_cases hlen : l.length < 2
  · rw [UCVE.boundPrune_small hlen]
    cases l with
    | nil => exact List.Pairwise.nil
    | cons a t =>
      cases t with
      | nil => simp
      | cons b t' => simp only [List.length_cons] at hlen; omega
  · obtain ⟨sh, st, t', hs0, ht', hres⟩ := UCVE.boundPrune_anatomy l x_l x_u logtA hlen
    have hperm := UCVE.perm_sortEntries l x_l logtA
    have hmem' : ∀ e : UCVE.Entry, e ∈ sh :: st → e ∈ l := by
      intro e he
      rw [← hs0] at he
      exact hperm.mem_iff.1 he
    have hsorted : List.Sorted (UCVE.pruneRel x_l logtA) (sh :: st) := by
      rw [← hs0]; exact UCVE.sorted_sortEntries l x_l logtA
    have hpw := UCVE.destutter'_pairwise x_l logtA st sh hsorted
      (fun e₁ h₁ e₂ h₂ => hsep e₁ (hmem' e₁ h₁) e₂ (hmem' e₂ h₂))
    rw [ht'] at hpw
    rw [hres]
    exact List.Pairwise.sublist
      ((UCVE.filterKeep_sublist _ t').cons₂ sh) hpw

/-- C6 witness: the amended theorem at a concrete two-entry list with
distinct pessimistic values (coefficient 0, so the pessimistic value is the
mean). -/
theorem boundPrune_unique_witness :
    List.Pairwise (fun u v : UCVE.Entry => u.2 ≠ v.2)
      (UCVE.boundPrune
        [(([], []), ((1 : ℚ), (0 : ℚ))), (([0], [0]), ((2 : ℚ), (0 : ℚ)))] 0 0 0) := by
  refine boundPrune_unique _ 0 0 0 ?_
  intro e₁ h₁ e₂ h₂ hcv
  rw [UCVE.computeValue_zero, UCVE.computeValue_zero] at hcv
  simp only [List.mem_cons, List.not_mem_nil, or_false] at h₁ h₂
  rcases h₁ with rfl | rfl <;> rcases h₂ with rfl | rfl
  · rfl
  · exfalso; rw [show ((((([], []), ((1 : ℚ), (0 : ℚ))) : UCVE.Entry)).2.1 : ℝ) = 1 by norm_num,
      show ((((([0], [0]), ((2 : ℚ), (0 : ℚ))) : UCVE.Entry)).2.1 : ℝ) = 2 by norm_num] at hcv
    norm_num at hcv
  · exfalso; rw [show ((((([], []), ((1 : ℚ), (0 : ℚ))) : UCVE.Entry)).2.1 : ℝ) = 1 by norm_num,
      show ((((([0], [0]), ((2 : ℚ), (0 : ℚ))) : UCVE.Entry)).2.1 : ℝ) = 2 by norm_num] at hcv
    norm_num at hcv
  · rfl

namespace UCVE

/-- `ruleComp` (UCVE.cpp lines 313-315): strict ordering of rules by the
lexicographic comparison of the action components of their tags. -/
def ruleComp (lhs rhs : Rule) : Prop := veccmp lhs.1.2 rhs.1.2 = Ordering.lt

instance : DecidableRel ruleComp := fun a b => by
  unfold ruleComp
  infer_instance

/-- The weak counterpart of `ruleComp`: what `std::sort` guarantees between
an earlier and a later element of its output. -/
def ruleLE (a b : Rule) : Prop := ¬ruleComp b a

instance : DecidableRel ruleLE := fun a b => by
  unfold ruleLE
  infer_instance

/-- The sorting step of `mergePayoffs` (UCVE.cpp lines 322-323). -/
def sortRules (rs : Rules) : Rules := List.insertionSort ruleLE rs

lemma veccmp_eq_iff : ∀ x y : List ℕ, veccmp x y = Ordering.eq ↔ x = y := by
  intro x
  induction x with
  | nil =>
    intro y
    cases y with
    | nil => simp [veccmp]
    | cons b ys => simp [veccmp]
  | cons a xs ih =>
    intro y
    cases y with
    | nil => simp [veccmp]
    | cons b ys =>
      unfold veccmp
      by_cases h1 : a < b
      · rw [if_pos h1]
        constructor
        · intro h; exact absurd h (by decide)
        · intro h; cases h; exact absurd h1 (lt_irrefl a)
      · rw [if_neg h1]
        by_cases h2 : b < a
        · rw [if_pos h2]
          constructor
          · intro h; exact absurd h (by decide)
          · intro h; cases h; exact absurd h2 (lt_irrefl a)
        · rw [if_neg h2]
          have hab : a = b := le_antisymm (not_lt.1 h2) (not_lt.1 h1)
          subst hab
          rw [ih ys]
          constructor
          · intro h; rw [h]
          · intro h; injection h

lemma veccmp_self (x : List ℕ) : veccmp x x = Ordering.eq := (veccmp_eq_iff x x).2 rfl

lemma veccmp_lt_iff_gt : ∀ x y : List ℕ, veccmp x y = Ordering.lt ↔ veccmp y x = Ordering.gt := by
  intro x
  induction x with
  | nil =>
    intro y
    cases y with
    | nil => simp [veccmp]
    | cons b ys => simp [veccmp]
  | cons a xs ih =>
    intro y
    cases y with
    | nil => simp [veccmp]
    | cons b ys =>
      unfold veccmp
      by_cases h1 : a < b
      · have h2 : ¬b < a := by omega
        rw [if_pos h1, if_neg h2, if_pos h1]
        simp
      · rw [if_neg h1]
        by_cases h2 : b < a
        · rw [if_pos h2, if_pos h2]
          constructor
          · intro h; exact absurd h (by decide)
          · intro h; exact absurd h (by decide)
        · rw [if_neg h2, if_neg h2, if_neg h1]
          exact ih ys

lemma veccmp_lt_trans : ∀ x y z : List ℕ, veccmp x y = Ordering.lt →
    veccmp y z = Ordering.lt → veccmp x z = Ordering.lt := by
  intro x
  induction x with
  | nil =>
    intro y z hxy hyz
    cases y with
    | nil => exact absurd hxy (by simp [veccmp])
    | cons b ys =>
      cases z with
      | nil => exact absurd hyz (by simp [veccmp])
      | cons c zs => simp [veccmp]
  | cons a xs ih =>
    intro y z hxy hyz
    cases y with
    | nil => exact absurd hxy (by simp [veccmp])
    | cons b ys =>
      cases z with
      | nil => exact absurd hyz (by simp [veccmp])
      | cons c zs =>
        unfold veccmp at hxy hyz ⊢
        by_cases h1 : a < b
        · by_cases h2 : b < c
          · rw [if_pos (by omega : a < c)]
          · rw [if_neg h2] at hyz
            by_cases h3 : c < b
            · rw [if_pos h3] at hyz
              exact absurd hyz (by decide)
            · have hbc : b = c := le_antisymm (not_lt.1 h3) (not_lt.1 h2)
              subst hbc
              rw [if_pos h1]
        · rw [if_neg h1] at hxy
          by_cases h1' : b < a
          · rw [if_pos h1'] at hxy
            exact absurd hxy (by decide)
          · have hab : a = b := le_antisymm (not_lt.1 h1') (not_lt.1 h1)
            subst hab
            rw [if_neg (lt_irrefl a)] at hxy
            by_cases h2 : a < c
            · rw [if_pos h2]
            · rw [if_neg h2] at hyz ⊢
              by_cases h3 : c < a
              · rw [if_pos h3] at hyz
                exact absurd hyz (by decide)
              · rw [if_neg h3] at hyz ⊢
                exact ih ys zs hxy hyz

instance : IsTotal Rule ruleLE := by
  refine ⟨fun a b => ?_⟩
  by_cases h : ruleComp b a
  · right
    intro habs
    unfold ruleComp at h habs
    rw [veccmp_lt_iff_gt] at habs
    rw [habs] at h
    exact absurd h (by decide)
  · left
    exact h

instance : IsTrans Rule ruleLE := by
  refine ⟨fun a b c h1 h2 => ?_⟩
  unfold ruleLE ruleComp at h1 h2 ⊢
  intro habs
  cases hab : veccmp b.1.2 a.1.2 with
  | lt => exact h1 hab
  | eq =>
    rw [veccmp_eq_iff] at hab
    rw [← hab] at habs
    exact h2 habs
  | gt =>
    rw [← veccmp_lt_iff_gt] at hab
    exact h2 (veccmp_lt_trans _ _ _ habs hab)

/-- The merge-join loop of `mergePayoffs` (UCVE.cpp lines 328-344), with an
explicit fuel parameter bounding the number of loop iterations (each
iteration consumes at least one input element, so `|lhs| + |rhs|` fuel always
suffices; the fuel-zero fallback is never reached from `mergePayoffs`). -/
def mergeJoinFuel : ℕ → Rules → Rules → Rules
  | 0, ls, rs => ls ++ rs
  | _ + 1, [], rs => rs
  | _ + 1, l :: ls, [] => l :: ls
  | fuel + 1, l :: ls, r :: rs =>
    if veccmp l.1.2 r.1.2 = Ordering.lt then l :: mergeJoinFuel fuel ls (r :: rs)
    else if veccmp l.1.2 r.1.2 = Ordering.gt then r :: mergeJoinFuel fuel (l :: ls) rs
    else (l.1, crossSum l.2 r.2) :: mergeJoinFuel fuel ls rs

/-- `mergePayoffs` (UCVE.cpp lines 317-347): sort both rule tables by
`ruleComp`, then merge-join them, cross-summing entry lists under equal
action tags. -/
def mergePayoffs (lhs rhs : Rules) : Rules :=
  mergeJoinFuel ((sortRules lhs).length + (sortRules rhs).length)
    (sortRules lhs) (sortRules rhs)

lemma mergeJoinFuel_nil_left (fuel : ℕ) (rs : Rules) :
    mergeJoinFuel (fuel + 1) [] rs = rs := rfl

lemma mergeJoinFuel_nil_right (fuel : ℕ) (l : Rule) (ls : Rules) :
    mergeJoinFuel (fuel + 1) (l :: ls) [] = l :: ls := rfl

lemma mergeJoinFuel_lt {l r : Rule} (fuel : ℕ) (ls rs : Rules)
    (h : veccmp l.1.2 r.1.2 = Ordering.lt) :
    mergeJoinFuel (fuel + 1) (l :: ls) (r :: rs)
      = l :: mergeJoinFuel fuel ls (r :: rs) := by
  conv_lhs => rw [mergeJoinFuel]
  rw [if_pos h]

lemma mergeJoinFuel_gt {l r : Rule} (fuel : ℕ) (ls rs : Rules)
    (h : veccmp l.1.2 r.1.2 = Ordering.gt) :
    mergeJoinFuel (fuel + 1) (l :: ls) (r :: rs)
      = r :: mergeJoinFuel fuel (l :: ls) rs := by
  conv_lhs => rw [mergeJoinFuel]
  rw [if_neg (by rw [h]; decide), if_pos h]

lemma mergeJoinFuel_eq {l r : Rule} (fuel : ℕ) (ls rs : Rules)
    (h : veccmp l.1.2 r.1.2 = Ordering.eq) :
    mergeJoinFuel (fuel + 1) (l :: ls) (r :: rs)
      = (l.1, crossSum l.2 r.2) :: mergeJoinFuel fuel ls rs := by
  conv_lhs => rw [mergeJoinFuel]
  rw [if_neg (by rw [h]; decide), if_neg (by rw [h]; decide)]

end UCVE

namespace UCVE

lemma mergeJoinFuel_mem_left : ∀ (fuel : ℕ) (ls rs : Rules),
    ls.length + rs.length ≤ fuel → ∀ l ∈ ls,
    l.1.2 ∉ rs.map (fun r => r.1.2) → l ∈ mergeJoinFuel fuel ls rs := by
  intro fuel
  induction fuel with
  | zero =>
    intro ls rs hfuel l hl _
    cases ls with
    | nil => exact absurd hl (List.not_mem_nil l)
    | cons a t => simp at hfuel
  | succ fuel ih =>
    intro ls rs hfuel l hl hkey
    cases ls with
    | nil => exact absurd hl (List.not_mem_nil l)
    | cons l0 ls' =>
      cases rs with
      | nil => rw [mergeJoinFuel_nil_right]; exact hl
      | cons r0 rs' =>
        simp only [List.length_cons] at hfuel
        cases hc : veccmp l0.1.2 r0.1.2 with
        | lt =>
          rw [mergeJoinFuel_lt fuel ls' rs' hc]
          rcases List.mem_cons.1 hl with rfl | hl'
          · exact List.mem_cons_self _ _
          · exact List.mem_cons_of_mem _
              (ih ls' (r0 :: rs') (by simp; omega) l hl' hkey)
        | gt =>
          rw [mergeJoinFuel_gt fuel ls' rs' hc]
          refine List.mem_cons_of_mem _ (ih (l0 :: ls') rs' (by simp; omega) l hl ?_)
          intro hmem
          exact hkey (by simp only [List.map_cons, List.mem_cons]; right; exact hmem)
        | eq =>
          rw [mergeJoinFuel_eq fuel ls' rs' hc]
          rcases List.mem_cons.1 hl with rfl | hl'
          · exfalso
            refine hkey ?_
            rw [veccmp_eq_iff] at hc
            simp only [List.map_cons, List.mem_cons]
            left
            exact hc
          · refine List.mem_cons_of_mem _ (ih ls' rs' (by omega) l hl' ?_)
            intro hmem
            exact hkey (by simp only [List.map_cons, List.mem_cons]; right; exact hmem)

lemma mergeJoinFuel_mem_right : ∀ (fuel : ℕ) (ls rs : Rules),
    ls.length + rs.length ≤ fuel → ∀ r ∈ rs,
    r.1.2 ∉ ls.map (fun l => l.1.2) → r ∈ mergeJoinFuel fuel ls rs := by
  intro fuel
  induction fuel with
  | zero =>
    intro ls rs hfuel r hr _
    cases rs with
    | nil => exact absurd hr (List.not_mem_nil r)
    | cons a t => simp at hfuel
  | succ fuel ih =>
    intro ls rs hfuel r hr hkey
    cases ls with
    | nil => rw [mergeJoinFuel_nil_left]; exact hr
    | cons l0 ls' =>
      cases rs with
      | nil => exact absurd hr (List.not_mem_nil r)
      | cons r0 rs' =>
        simp only [List.length_cons] at hfuel
        cases hc : veccmp l0.1.2 r0.1.2 with
        | lt =>
          rw [mergeJoinFuel_lt fuel ls' rs' hc]
          refine List.mem_cons_of_mem _ (ih ls' (r0 :: rs') (by simp; omega) r hr ?_)
          intro hmem
          exact hkey (by simp only [List.map_cons, List.mem_cons]; right; exact hmem)
        | gt =>
          rw [mergeJoinFuel_gt fuel ls' rs' hc]
          rcases List.mem_cons.1 hr with rfl | hr'
          · exact List.mem_cons_self _ _
          · exact List.mem_cons_of_mem _
              (ih (l0 :: ls') rs' (by simp; omega) r hr' hkey)
        | eq =>
          rw [mergeJoinFuel_eq fuel ls' rs' hc]
          rcases List.mem_cons.1 hr with rfl | hr'
          · exfalso
            refine hkey ?_
            rw [veccmp_eq_iff] at hc
            simp only [List.map_cons, List.mem_cons]
            left
            exact hc.symm
          · refine List.mem_cons_of_mem _ (ih ls' rs' (by omega) r hr' ?_)
            intro hmem
            exact hkey (by simp only [List.map_cons, List.mem_cons]; right; exact hmem)

lemma mergeJoinFuel_mem_both : ∀ (fuel : ℕ) (ls rs : Rules),
    ls.length + rs.length ≤ fuel →
    List.Pairwise ruleComp ls → List.Pairwise ruleComp rs →
    ∀ l ∈ ls, ∀ r ∈ rs, l.1.2 = r.1.2 →
    (l.1, crossSum l.2 r.2) ∈ mergeJoinFuel fuel ls rs := by
  intro fuel
  induction fuel with
  | zero =>
    intro ls rs hfuel _ _ l hl
    cases ls with
    | nil => exact absurd hl (List.not_mem_nil l)
    | cons a t => simp at hfuel
  | succ fuel ih =>
    intro ls rs hfuel hsl hsr l hl r hr hkey
    cases ls with
    | nil => exact absurd hl (List.not_mem_nil l)
    | cons l0 ls' =>
      cases rs with
      | nil => exact absurd hr (List.not_mem_nil r)
      | cons r0 rs' =>
        simp only [List.length_cons] at hfuel
        have hsl' := (List.pairwise_cons.1 hsl).2
        have hsr' := (List.pairwise_cons.1 hsr).2
        have hsl0 := (List.pairwise_cons.1 hsl).1
        have hsr0 := (List.pairwise_cons.1 hsr).1
        cases hc : veccmp l0.1.2 r0.1.2 with
        | lt =>
          rw [mergeJoinFuel_lt fuel ls' rs' hc]
          rcases List.mem_cons.1 hl with rfl | hl'
          · exfalso
            rcases List.mem_cons.1 hr with rfl | hr'
            · rw [hkey, veccmp_self] at hc
              exact absurd hc (by decide)
            · have h1 : veccmp r0.1.2 r.1.2 = Ordering.lt := hsr0 r hr'
              rw [← hkey] at h1
              have h2 := veccmp_lt_trans _ _ _ hc h1
              rw [hkey, veccmp_self] at h2
              exact absurd h2 (by decide)
          · exact List.mem_cons_of_mem _
              (ih ls' (r0 :: rs') (by simp; omega) hsl' hsr l hl' r hr hkey)
        | gt =>
          rw [mergeJoinFuel_gt fuel ls' rs' hc]
          rcases List.mem_cons.1 hr with rfl | hr'
          · exfalso
            rw [← veccmp_lt_iff_gt] at hc
            rcases List.mem_cons.1 hl with rfl | hl'
            · rw [hkey, veccmp_self] at hc
              exact absurd hc (by decide)
            · have h1 : veccmp l0.1.2 l.1.2 = Ordering.lt := hsl0 l hl'
              have h2 := veccmp_lt_trans _ _ _ hc h1
              rw [hkey, veccmp_self] at h2
              exact absurd h2 (by decide)
          · exact List.mem_cons_of_mem _
              (ih (l0 :: ls') rs' (by simp; omega) hsl hsr' l hl r hr' hkey)
        | eq =>
          rw [mergeJoinFuel_eq fuel ls' rs' hc]
          rw [veccmp_eq_iff] at hc
          rcases List.mem_cons.1 hl with rfl | hl'
          · rcases List.mem_cons.1 hr with rfl | hr'
            · exact List.mem_cons_self _ _
            · exfalso
              have h1 : veccmp r0.1.2 r.1.2 = Ordering.lt := hsr0 r hr'
              rw [← hkey, ← hc, veccmp_self] at h1
              exact absurd h1 (by decide)
          · rcases List.mem_cons.1 hr with rfl | hr'
            · exfalso
              have h1 : veccmp l0.1.2 l.1.2 = Ordering.lt := hsl0 l hl'
              rw [hc, hkey, veccmp_self] at h1
              exact absurd h1 (by decide)
            · exact List.mem_cons_of_mem _
                (ih ls' rs' (by omega) hsl' hsr' l hl' r hr' hkey)

lemma mergeJoinFuel_keys : ∀ (fuel : ℕ) (ls rs : Rules),
    ∀ u ∈ mergeJoinFuel fuel ls rs,
    u.1.2 ∈ ls.map (fun v => v.1.2) ∨ u.1.2 ∈ rs.map (fun v => v.1.2) := by
  intro fuel
  induction fuel with
  | zero =>
    intro ls rs u hu
    rcases List.mem_append.1 hu with h | h
    · exact Or.inl (List.mem_map_of_mem _ h)
    · exact Or.inr (List.mem_map_of_mem _ h)
  | succ fuel ih =>
    intro ls rs u hu
    cases ls with
    | nil =>
      rw [mergeJoinFuel_nil_left] at hu
      exact Or.inr (List.mem_map_of_mem _ hu)
    | cons l0 ls' =>
      cases rs with
      | nil =>
        rw [mergeJoinFuel_nil_right] at hu
        exact Or.inl (List.mem_map_of_mem _ hu)
      | cons r0 rs' =>
        cases hc : veccmp l0.1.2 r0.1.2 with
        | lt =>
          rw [mergeJoinFuel_lt fuel ls' rs' hc] at hu
          rcases List.mem_cons.1 hu with rfl | hu'
          · exact Or.inl (by simp)
          · rcases ih ls' (r0 :: rs') u hu' with h | h
            · exact Or.inl (by simp only [List.map_cons, List.mem_cons]; right; exact h)
            · exact Or.inr h
        | gt =>
          rw [mergeJoinFuel_gt fuel ls' rs' hc] at hu
          rcases List.mem_cons.1 hu with rfl | hu'
          · exact Or.inr (by simp)
          · rcases ih (l0 :: ls') rs' u hu' with h | h
            · exact Or.inl h
            · exact Or.inr (by simp only [List.map_cons, List.mem_cons]; right; exact h)
        | eq =>
          rw [mergeJoinFuel_eq fuel ls' rs' hc] at hu
          rcases List.mem_cons.1 hu with rfl | hu'
          · exact Or.inl (by simp)
          · rcases ih ls' rs' u hu' with h | h
            · exact Or.inl (by simp only [List.map_cons, List.mem_cons]; right; exact h)
            · exact Or.inr (by simp only [List.map_cons, List.mem_cons]; right; exact h)

lemma mergeJoinFuel_pairwise : ∀ (fuel : ℕ) (ls rs : Rules),
    List.Pairwise ruleComp ls → List.Pairwise ruleComp rs →
    List.Pairwise ruleComp (mergeJoinFuel fuel ls rs) ∨ fuel < ls.length + rs.length := by
  intro fuel
  induction fuel with
  | zero =>
    intro ls rs hsl hsr
    cases ls with
    | nil =>
      cases rs with
      | nil => exact Or.inl (by simp [mergeJoinFuel])
      | cons a t => right; simp
    | cons a t => right; simp
  | succ fuel ih =>
    intro ls rs hsl hsr
    cases ls with
    | nil =>
      rw [mergeJoinFuel_nil_left]
      exact Or.inl hsr
    | cons l0 ls' =>
      cases rs with
      | nil =>
        rw [mergeJoinFuel_nil_right]
        exact Or.inl hsl
      | cons r0 rs' =>
        have hsl' := (List.pairwise_cons.1 hsl).2
        have hsr' := (List.pairwise_cons.1 hsr).2
        have hsl0 := (List.pairwise_cons.1 hsl).1
        have hsr0 := (List.pairwise_cons.1 hsr).1
        by_cases hbig : (l0 :: ls').length + (r0 :: rs').length ≤ fuel + 1
        · left
          simp only [List.length_cons] at hbig
          cases hc : veccmp l0.1.2 r0.1.2 with
          | lt =>
            rw [mergeJoinFuel_lt fuel ls' rs' hc]
            refine List.pairwise_cons.2 ⟨?_, ?_⟩
            · intro u hu
              unfold ruleComp
              rcases mergeJoinFuel_keys fuel ls' (r0 :: rs') u hu with h | h
              · rcases List.mem_map.1 h with ⟨v, hv, hkv⟩
                rw [← hkv]
                exact hsl0 v hv
              · rcases List.mem_map.1 h with ⟨v, hv, hkv⟩
                rw [← hkv]
                rcases List.mem_cons.1 hv with rfl | hv'
                · exact hc
                · exact veccmp_lt_trans _ _ _ hc (hsr0 v hv')
            · rcases ih ls' (r0 :: rs') hsl' hsr with h | h
              · exact h
              · exfalso; simp only [List.length_cons] at h; omega
          | gt =>
            rw [mergeJoinFuel_gt fuel ls' rs' hc]
            rw [← veccmp_lt_iff_gt] at hc
            refine List.pairwise_cons.2 ⟨?_, ?_⟩
            · intro u hu
              unfold ruleComp
              rcases mergeJoinFuel_keys fuel (l0 :: ls') rs' u hu with h | h
              · rcases List.mem_map.1 h with ⟨v, hv, hkv⟩
                rw [← hkv]
                rcases List.mem_cons.1 hv with rfl | hv'
                · exact hc
                · exact veccmp_lt_trans _ _ _ hc (hsl0 v hv')
              · rcases List.mem_map.1 h with ⟨v, hv, hkv⟩
                rw [← hkv]
                exact hsr0 v hv
            · rcases ih (l0 :: ls') rs' hsl hsr' with h | h
              · exact h
              · exfalso; simp only [List.length_cons] at h; omega
          | eq =>
            rw [mergeJoinFuel_eq fuel ls' rs' hc]
            rw [veccmp_eq_iff] at hc
            refine List.pairwise_cons.2 ⟨?_, ?_⟩
            · intro u hu
              unfold ruleComp
              rcases mergeJoinFuel_keys fuel ls' rs' u hu with h | h
              · rcases List.mem_map.1 h with ⟨v, hv, hkv⟩
                rw [← hkv]
                exact hsl0 v hv
              · rcases List.mem_map.1 h with ⟨v, hv, hkv⟩
                rw [← hkv]
                show veccmp l0.1.2 v.1.2 = Ordering.lt
                rw [hc]
                exact hsr0 v hv
            · rcases ih ls' rs' hsl' hsr' with h | h
              · exact h
              · exfalso; omega
        · right
          omega

end UCVE

namespace UCVE

lemma perm_sortRules (rs : Rules) : (sortRules rs).Perm rs :=
  List.perm_insertionSort ruleLE rs

lemma strictSorted_sortRules (rs : Rules) (hnd : (rs.map fun r => r.1.2).Nodup) :
    List.Pairwise ruleComp (sortRules rs) := by
  have hs : List.Pairwise ruleLE (sortRules rs) := List.sorted_insertionSort ruleLE rs
  have hnd' : ((sortRules rs).map fun r => r.1.2).Nodup :=
    (List.Perm.nodup_iff (List.Perm.map _ (perm_sortRules rs))).2 hnd
  have hkne : List.Pairwise (fun a b : Rule => a.1.2 ≠ b.1.2) (sortRules rs) :=
    List.pairwise_map.1 hnd'
  refine (hs.and hkne).imp ?_
  rintro a b ⟨hle, hne⟩
  unfold ruleComp
  cases hc : veccmp a.1.2 b.1.2 with
  | lt => rfl
  | eq => exact absurd ((veccmp_eq_iff _ _).1 hc) hne
  | gt => exact absurd ((veccmp_lt_iff_gt _ _).2 hc) hle

end UCVE

/-- C4 counterexample: the claim says every rule whose *tag* occurs on only
one side passes through unchanged.  `ruleComp` compares only the action
component of the tags, so two single-rule tables whose tags have distinct
agents but equal action sequences are treated as matching: their entry lists
are cross-summed under the left tag, and neither original rule survives
unchanged (the right tag disappears entirely). -/
theorem mergePayoffs_counterexample :
    UCVE.mergePayoffs
        [((([0], [5]) : UCVE.PartialAction), [(([], []), ((1 : ℚ), (0 : ℚ)))])]
        [((([1], [5]) : UCVE.PartialAction), [(([], []), ((1 : ℚ), (0 : ℚ)))])]
      = [((([0], [5]) : UCVE.PartialAction), [(([], []), ((2 : ℚ), (0 : ℚ)))])] ∧
    ((([1], [5]) : UCVE.PartialAction), [((([], []) : UCVE.PartialAction), ((1 : ℚ), (0 : ℚ)))])
      ∉ UCVE.mergePayoffs
        [((([0], [5]) : UCVE.PartialAction), [(([], []), ((1 : ℚ), (0 : ℚ)))])]
        [((([1], [5]) : UCVE.PartialAction), [(([], []), ((1 : ℚ), (0 : ℚ)))])] := by
  have h : UCVE.mergePayoffs
      [((([0], [5]) : UCVE.PartialAction), [(([], []), ((1 : ℚ), (0 : ℚ)))])]
      [((([1], [5]) : UCVE.PartialAction), [(([], []), ((1 : ℚ), (0 : ℚ)))])]
      = [((([0], [5]) : UCVE.PartialAction),
          [(([], []), ((1 : ℚ) + 1, (0 : ℚ) + 0))])] := rfl
  constructor
  · rw [h]
    norm_num
  · rw [h]
    simp

/-- C4 (amended): for rule tables whose *action sequences* are duplicate-free
on each side, `mergePayoffs` passes through unchanged every rule whose action
sequence occurs on only one side, and for an action sequence present on both
sides produces a rule carrying the left tag whose Entries are the cross-sum
of the two sides' Entries; the output never contains two rules with the same
action sequence.  The merge keys on the action component of the tags only
(`ruleComp` uses `veccmp` on `tag.second`), which coincides with keying on
whole tags exactly when both tables use the same agent scope. -/
theorem mergePayoffs_correct (lhs rhs : UCVE.Rules)
    (hl : (lhs.map fun r => r.1.2).Nodup) (hr : (rhs.map fun r => r.1.2).Nodup) :
    (∀ rule ∈ lhs, rule.1.2 ∉ rhs.map (fun r => r.1.2) →
      rule ∈ UCVE.mergePayoffs lhs rhs) ∧
    (∀ rule ∈ rhs, rule.1.2 ∉ lhs.map (fun r => r.1.2) →
      rule ∈ UCVE.mergePayoffs lhs rhs) ∧
    (∀ l ∈ lhs, ∀ r ∈ rhs, l.1.2 = r.1.2 →
      (l.1, UCVE.crossSum l.2 r.2) ∈ UCVE.mergePayoffs lhs rhs) ∧
    List.Pairwise (fun a b : UCVE.Rule => a.1.2 ≠ b.1.2)
      (UCVE.mergePayoffs lhs rhs) := by
  have hpl := UCVE.perm_sortRules lhs
  have hpr := UCVE.perm_sortRules rhs
  have hkeysl : ∀ k : List ℕ,
      k ∈ (UCVE.sortRules lhs).map (fun r => r.1.2) ↔ k ∈ lhs.map (fun r => r.1.2) :=
    fun k => (List.Perm.map _ hpl).mem_iff
  have hkeysr : ∀ k : List ℕ,
      k ∈ (UCVE.sortRules rhs).map (fun r => r.1.2) ↔ k ∈ rhs.map (fun r => r.1.2) :=
    fun k => (List.Perm.map _ hpr).mem_iff
  refine ⟨?_, ?_, ?_, ?_⟩
  · intro rule hmem hnot
    exact UCVE.mergeJoinFuel_mem_left _ _ _ (le_refl _) rule (hpl.mem_iff.2 hmem)
      (fun hk => hnot ((hkeysr _).1 hk))
  · intro rule hmem hnot
    exact UCVE.mergeJoinFuel_mem_right _ _ _ (le_refl _) rule (hpr.mem_iff.2 hmem)
      (fun hk => hnot ((hkeysl _).1 hk))
  · intro l hlm r hrm hk
    exact UCVE.mergeJoinFuel_mem_both _ _ _ (le_refl _)
      (UCVE.strictSorted_sortRules lhs hl) (UCVE.strictSorted_sortRules rhs hr)
      l (hpl.mem_iff.2 hlm) r (hpr.mem_iff.2 hrm) hk
  · rcases UCVE.mergeJoinFuel_pairwise
        ((UCVE.sortRules lhs).length + (UCVE.sortRules rhs).length)
        (UCVE.sortRules lhs) (UCVE.sortRules rhs)
        (UCVE.strictSorted_sortRules lhs hl) (UCVE.strictSorted_sortRules rhs hr)
      with h | h
    · refine h.imp ?_
      intro a b hab hk
      unfold UCVE.ruleComp at hab
      rw [hk, UCVE.veccmp_self] at hab
      exact absurd hab (by decide)
    · exact absurd h (lt_irrefl _)

/-- C4 witness: the amended theorem applied to two concrete single-rule
tables with distinct action sequences — the left rule passes through
unchanged; plus the claim's concrete instance with identical tags and
Entries `[(2,0)]`, `[(3,0)]` cross-summing to one `[(5,0)]` rule. -/
theorem mergePayoffs_correct_witness :
    ((([0], [0]) : UCVE.PartialAction),
        [((([], []) : UCVE.PartialAction), ((2 : ℚ), (0 : ℚ)))]) ∈
      UCVE.mergePayoffs
        [((([0], [0]) : UCVE.PartialAction), [(([], []), ((2 : ℚ), (0 : ℚ)))])]
        [((([0], [1]) : UCVE.PartialAction), [(([], []), ((3 : ℚ), (0 : ℚ)))])] ∧
    UCVE.mergePayoffs
        [((([0, 1], [0, 0]) : UCVE.PartialAction), [(([], []), ((2 : ℚ), (0 : ℚ)))])]
        [((([0, 1], [0, 0]) : UCVE.PartialAction), [(([], []), ((3 : ℚ), (0 : ℚ)))])]
      = [((([0, 1], [0, 0]) : UCVE.PartialAction),
          [((([], []) : UCVE.PartialAction), ((5 : ℚ), (0 : ℚ)))])] := by
  constructor
  · exact (mergePayoffs_correct _ _ (by decide) (by decide)).1 _ (by decide) (by decide)
  · have h : UCVE.mergePayoffs
        [((([0, 1], [0, 0]) : UCVE.PartialAction), [(([], []), ((2 : ℚ), (0 : ℚ)))])]
        [((([0, 1], [0, 0]) : UCVE.PartialAction), [(([], []), ((3 : ℚ), (0 : ℚ)))])]
        = [((([0, 1], [0, 0]) : UCVE.PartialAction),
            [(([], []), ((2 : ℚ) + 3, (0 : ℚ) + 0))])] := rfl
    rw [h]
    norm_num

namespace UCVE

/-- Modelled from the spec: a factor node of the bipartite graph — a scope
(set of agent indices) plus its payoff table.  The graph itself
(`FactorGraph`, not part of the translated source) is modelled as the list
of live factor nodes plus the list of live agents. -/
structure Factor where
  scope : List ℕ
  rules : Rules

/-- The state of a `UCVE` object: the action-space sizes `A`, the pre-halved
exploration coefficient `logtA_`, the graph (live agents and factor nodes)
and the `finalFactors_` accumulator. -/
structure UCVEState where
  A : List ℕ
  logtA : ℝ
  agents : List ℕ
  factors : List Factor
  finalFactors : List Entries

/-- Insert a value at a position of a list (used for tag insertion). -/
def insertAt : ℕ → ℕ → List ℕ → List ℕ
  | 0, x, l => x :: l
  | _ + 1, x, [] => [x]
  | n + 1, x, a :: l => a :: insertAt n x l

/-- The position scan of UCVE.cpp lines 195-196: count the leading tag
agents smaller than the inserted agent. -/
def insertPos (agent : ℕ) : List ℕ → ℕ
  | [] => 0
  | a :: as => if a < agent then insertPos agent as + 1 else 0

/-- UCVE.cpp lines 191-200: insert the eliminated agent and its action into
an entry's tag, keeping the agent sequence ascending. -/
def insertTagAgent (agent act : ℕ) (e : Entry) : Entry :=
  ((insertAt (insertPos agent e.1.1) agent e.1.1,
    insertAt (insertPos agent e.1.1) act e.1.2), e.2)

/-- Drop the element at a position of a list. -/
def removeAt : ℕ → List ℕ → List ℕ
  | _, [] => []
  | 0, _ :: l => l
  | n + 1, a :: l => a :: removeAt n l

/-- Index of an agent in a tag's agent list. -/
def idxOfN (agent : ℕ) : List ℕ → ℕ
  | [] => 0
  | a :: as => if a = agent then 0 else idxOfN agent as + 1

/-- Modelled from the spec: `removeFactor` (from `Factored/Utils`, not part
of the translated source) drops the eliminated agent's slot from a partial
action (UCVE.cpp line 211). -/
def removeFactorTag (t : PartialAction) (agent : ℕ) : PartialAction :=
  (removeAt (idxOfN agent t.1) t.1, removeAt (idxOfN agent t.1) t.2)

/-- Modelled from the spec: `graph_.getNeighbors(factors)` — the union of
the scopes of a factor set, in canonical ascending order. -/
def scopeUnion (fs : List Factor) : List ℕ :=
  List.insertionSort (fun a b => a ≤ b) ((fs.map Factor.scope).flatten.dedup)

/-- Modelled from the spec: the joint-action enumerator
(`PartialFactorsEnumerator`, not part of the translated source) — all tuples
over the given per-slot sizes; the caller gives the skip slot size one and
overwrites it. -/
def enumTuples : List ℕ → List (List ℕ)
  | [] => [[]]
  | n :: rest => (List.range n).flatMap fun x => (enumTuples rest).map fun t => x :: t

/-- UCVE.cpp lines 145-154: the largest bonus term appearing in a factor's
table, folded from `std::numeric_limits<double>::lowest()`. -/
noncomputable def factorMaxBonus (f : Factor) : ℝ :=
  ((f.rules.map fun r => r.2.map fun e => (e.2.2 : ℝ)).flatten).foldl max dblLowest

/-- UCVE.cpp lines 145-154: the smallest bonus term, folded from
`std::numeric_limits<double>::max()`. -/
noncomputable def factorMinBonus (f : Factor) : ℝ :=
  ((f.rules.map fun r => r.2.map fun e => (e.2.2 : ℝ)).flatten).foldl min dblMax

/-- UCVE.cpp lines 174-186: concatenate the payoffs of the first adjacent
factor, then cross-sum the remaining adjacent factors in sequence, pruning
whenever the candidate count grew. -/
noncomputable def combineFactors (f0 : Factor) (rest : List Factor)
    (ja : PartialAction) (x_l x_u logtA : ℝ) : Entries :=
  (rest.foldl
    (fun acc f =>
      let nxt := crossSumV acc.1 (getPayoffs f.rules ja)
      if acc.2 < nxt.length then
        (boundPrune nxt x_l x_u logtA, (boundPrune nxt x_l x_u logtA).length)
      else (nxt, acc.2))
    ((getPayoffs f0.rules ja).flatten, (getPayoffs f0.rules ja).flatten.length)).1

/-- UCVE.cpp lines 170-204: for one assignment to the other agents, loop
over the eliminated agent's actions, combine the adjacent factors and insert
the agent/action into the surviving tags. -/
noncomputable def valuesFor (A : List ℕ) (v : ℕ) (agentsV : List ℕ) (f0 : Factor)
    (rest : List Factor) (x_l x_u logtA : ℝ) (asgn : List ℕ) : Entries :=
  (List.range (A.getD v 0)).flatMap fun act =>
    let ja : PartialAction := (agentsV, asgn.set (idxOfN v agentsV) act)
    let newEntries := combineFactors f0 rest ja x_l x_u logtA
    if newEntries = [] then [] else newEntries.map (insertTagAgent v act)

/-- One step of the assignment walk (UCVE.cpp lines 205-216): if the
accumulated values are non-empty, emit a new rule (non-terminal case) or
append to the final-factor accumulator (terminal case). -/
noncomputable def paStep (A : List ℕ) (v : ℕ) (agentsV : List ℕ) (f0 : Factor)
    (rest : List Factor) (isFinal : Bool) (x_l x_u logtA : ℝ)
    (acc : Rules × List Entries) (asgn : List ℕ) : Rules × List Entries :=
  if valuesFor A v agentsV f0 rest x_l x_u logtA asgn = [] then acc
  else if isFinal then
    (acc.1, acc.2 ++ [valuesFor A v agentsV f0 rest x_l x_u logtA asgn])
  else
    (acc.1 ++ [(removeFactorTag (agentsV, asgn) v,
      valuesFor A v agentsV f0 rest x_l x_u logtA asgn)], acc.2)

/-- UCVE.cpp lines 167-218: walk the assignment enumeration. -/
noncomputable def processAssignments (A : List ℕ) (v : ℕ) (agentsV : List ℕ)
    (f0 : Factor) (rest : List Factor) (isFinal : Bool) (x_l x_u logtA : ℝ) :
    List (List ℕ) → Rules × List Entries → Rules × List Entries
  | [], acc => acc
  | asgn :: more, acc =>
    processAssignments A v agentsV f0 rest isFinal x_l x_u logtA more
      (paStep A v agentsV f0 rest isFinal x_l x_u logtA acc asgn)

/-- UCVE.cpp lines 228-243 with the spec-modelled `graph_.getFactor`:
fetch-or-create the factor node with the given scope and merge the new rules
into its table. -/
def updateFactor : List Factor → List ℕ → Rules → List Factor
  | [], scope, nr => [⟨scope, mergePayoffs [] nr⟩]
  | f :: fs, scope, nr =>
    if f.scope = scope then ⟨f.scope, mergePayoffs f.rules nr⟩ :: fs
    else f :: updateFactor fs scope nr

/-- `UCVE::removeAgent` (UCVE.cpp lines 115-244).  The adjacent factor list
may be empty only for an isolated agent, a case the C++ never reaches from
`start` on well-formed graphs (it would index `factors[0]`); the model then
just erases the agent. -/
noncomputable def removeAgent (s : UCVEState) (v : ℕ) : UCVEState :=
  match s.factors.filter fun f => v ∈ f.scope with
  | [] =>
    { s with agents := s.agents.erase v,
             factors := s.factors.filter fun f => ¬(v ∈ f.scope) }
  | f0 :: rest =>
    let others := s.factors.filter fun f => ¬(v ∈ f.scope)
    let agentsV := scopeUnion (f0 :: rest)
    let isFinal : Bool := agentsV.length == 1
    let x_u := (others.map factorMaxBonus).sum
    let x_l := (others.map factorMinBonus).sum
    let asgns := enumTuples (agentsV.map fun a => if a = v then 1 else s.A.getD a 0)
    let res := processAssignments s.A v agentsV f0 rest isFinal x_l x_u s.logtA asgns ([], [])
    { s with
      agents := s.agents.erase v,
      factors :=
        if res.1 = [] then others
        else if isFinal then others
        else updateFactor others (agentsV.erase v) res.1,
      finalFactors := s.finalFactors ++ res.2 }

/-- The elimination loop of `start` (UCVE.cpp lines 88-89): repeatedly
remove the highest remaining agent index; the fuel is the initial number of
agents (each round erases the removed agent, so `variableSize` counts down
from it). -/
noncomputable def eliminate (s : UCVEState) : ℕ → UCVEState
  | 0 => s
  | n + 1 => eliminate (removeAgent s n) n

/-- UCVE.cpp lines 96-99: combine the accumulated final factors one by one,
pruning with zero bounds after each combination. -/
noncomputable def combineFinals (ffs : List Entries) (logtA : ℝ) : Entries :=
  ffs.foldl (fun results fv => boundPrune (crossSum results fv) 0 0 logtA) []

/-- The value-initialized `Result` returned on an empty graph (`return {}`,
UCVE.cpp line 93); also stands for the uninitialized `retval` iterator of
lines 102-112, which is only dereferenced after being set. -/
def defaultEntry : Entry := (([], []), (0, 0))

/-- The selection loop of `start` (UCVE.cpp lines 102-110): running maximum
from `std::numeric_limits<double>::lowest()`, strict improvement updates. -/
noncomputable def pickBestAux : Entries → ℝ → Entry → Entry
  | [], _, best => best
  | e :: es, m, best =>
    if m < computeValue e 0 0 then pickBestAux es (computeValue e 0 0) e
    else pickBestAux es m best

noncomputable def pickBest (l : Entries) : Entry := pickBestAux l dblLowest defaultEntry

/-- `UCVE::start` (UCVE.cpp lines 86-113). -/
noncomputable def start (s : UCVEState) : Entry :=
  if (eliminate s s.agents.length).finalFactors = [] then defaultEntry
  else
    pickBest (combineFinals (eliminate s s.agents.length).finalFactors
      (eliminate s s.agents.length).logtA)

/-- The constructor `UCVE::UCVE` (UCVE.cpp line 81): stores the action-space
sizes and *half* the exploration coefficient; the graph starts with agents
`0..n-1` and the estimator-supplied factors. -/
noncomputable def mkUCVE (a : List ℕ) (logtA : ℝ) (factors : List Factor) : UCVEState :=
  ⟨a, logtA * 0.5, List.range a.length, factors, []⟩

end UCVE

/-- The single shared factor of the specified end-to-end scenario: two
agents with two actions each, deterministic mean payoffs `[[1,3],[5,2]]`
indexed by `(actionA, actionB)`, bonus 0 everywhere. -/
def demoFactor : UCVE.Factor := ⟨[0, 1],
  [(([0, 1], [0, 0]), [(([], []), ((1 : ℚ), (0 : ℚ)))]),
   (([0, 1], [0, 1]), [(([], []), ((3 : ℚ), (0 : ℚ)))]),
   (([0, 1], [1, 0]), [(([], []), ((5 : ℚ), (0 : ℚ)))]),
   (([0, 1], [1, 1]), [(([], []), ((2 : ℚ), (0 : ℚ)))])]⟩

/-- The `UCVE` object of the end-to-end scenario: exploration coefficient 0
(halved to 0 by the constructor), one shared factor. -/
noncomputable def demoState : UCVE.UCVEState := UCVE.mkUCVE [2, 2] 0 [demoFactor]

/-- The single final factor produced by eliminating both agents of the
scenario: one fully-tagged entry per joint action. -/
def demoValues : UCVE.Entries :=
  [(([0, 1], [0, 0]), (1, 0)), (([0, 1], [0, 1]), (3, 0)),
   (([0, 1], [1, 0]), (5, 0)), (([0, 1], [1, 1]), (2, 0))]

namespace UCVE

lemma demo_final :
    (UCVE.eliminate demoState demoState.agents.length).finalFactors = [demoValues] := rfl

lemma demo_logtA :
    (UCVE.eliminate demoState demoState.agents.length).logtA = (0 : ℝ) * 0.5 := rfl

lemma orderedInsert_of_not {r : Entry → Entry → Prop} [DecidableRel r] (a b : Entry)
    (l : Entries) (h : ¬r a b) :
    List.orderedInsert r a (b :: l) = b :: List.orderedInsert r a l := by
  simp only [List.orderedInsert]
  rw [if_neg h]

lemma demo_prune : UCVE.boundPrune demoValues 0 0 0
    = [(([0, 1], [1, 0]), ((5 : ℚ), (0 : ℚ)))] := by
  have key : ∀ (t : UCVE.PartialAction) (m b : ℚ),
      UCVE.computeValue ((t, (m, b)) : UCVE.Entry) 0 0 = (m : ℝ) :=
    fun t m b => UCVE.computeValue_zero _
  have hq : ∀ (t u : UCVE.PartialAction) (m₁ b₁ m₂ b₂ : ℚ), m₂ ≤ m₁ →
      UCVE.pruneRel 0 0 ((t, (m₁, b₁)) : UCVE.Entry) ((u, (m₂, b₂)) : UCVE.Entry) := by
    intro t u m₁ b₁ m₂ b₂ h
    unfold UCVE.pruneRel
    rw [key, key]
    exact_mod_cast h
  have hqn : ∀ (t u : UCVE.PartialAction) (m₁ b₁ m₂ b₂ : ℚ), m₁ < m₂ →
      ¬UCVE.pruneRel 0 0 ((t, (m₁, b₁)) : UCVE.Entry) ((u, (m₂, b₂)) : UCVE.Entry) := by
    intro t u m₁ b₁ m₂ b₂ h habs
    unfold UCVE.pruneRel at habs
    rw [key, key] at habs
    have h2 : m₂ ≤ m₁ := by exact_mod_cast habs
    exact absurd h2 (not_le.2 h)
  have hfn : ∀ (t u : UCVE.PartialAction) (m₁ b₁ m₂ b₂ : ℚ), m₂ ≤ m₁ →
      ¬(UCVE.computeValue ((t, (m₁, b₁)) : UCVE.Entry) 0 0
        < UCVE.computeValue ((u, (m₂, b₂)) : UCVE.Entry) 0 0) := by
    intro t u m₁ b₁ m₂ b₂ h habs
    rw [key, key] at habs
    have h2 : m₁ < m₂ := by exact_mod_cast habs
    exact absurd h2 (not_lt.2 h)
  have hsort : UCVE.sortEntries demoValues 0 0
      = [(([0, 1], [1, 0]), ((5 : ℚ), (0 : ℚ))), (([0, 1], [0, 1]), ((3 : ℚ), (0 : ℚ))),
         (([0, 1], [1, 1]), ((2 : ℚ), (0 : ℚ))), (([0, 1], [0, 0]), ((1 : ℚ), (0 : ℚ)))] := by
    show List.orderedInsert (UCVE.pruneRel 0 0) (([0, 1], [0, 0]), ((1 : ℚ), (0 : ℚ)))
        (List.orderedInsert (UCVE.pruneRel 0 0) (([0, 1], [0, 1]), ((3 : ℚ), (0 : ℚ)))
          (List.orderedInsert (UCVE.pruneRel 0 0) (([0, 1], [1, 0]), ((5 : ℚ), (0 : ℚ)))
            (List.orderedInsert (UCVE.pruneRel 0 0) (([0, 1], [1, 1]), ((2 : ℚ), (0 : ℚ))) [])))
        = _
    rw [List.orderedInsert_nil,
      List.orderedInsert_of_le _ _ (hq _ _ 5 0 2 0 (by norm_num)),
      UCVE.orderedInsert_of_not _ _ _ (hqn _ _ 3 0 5 0 (by norm_num)),
      List.orderedInsert_of_le _ _ (hq _ _ 3 0 2 0 (by norm_num)),
      UCVE.orderedInsert_of_not _ _ _ (hqn _ _ 1 0 5 0 (by norm_num)),
      UCVE.orderedInsert_of_not _ _ _ (hqn _ _ 1 0 3 0 (by norm_num)),
      UCVE.orderedInsert_of_not _ _ _ (hqn _ _ 1 0 2 0 (by norm_num)),
      List.orderedInsert_nil]
  have hdest : ([(([0, 1], [1, 0]), ((5 : ℚ), (0 : ℚ))), (([0, 1], [0, 1]), ((3 : ℚ), (0 : ℚ))),
      (([0, 1], [1, 1]), ((2 : ℚ), (0 : ℚ))), (([0, 1], [0, 0]), ((1 : ℚ), (0 : ℚ)))]
        : UCVE.Entries).destutter UCVE.dupDiff
      = [(([0, 1], [1, 0]), ((5 : ℚ), (0 : ℚ))), (([0, 1], [0, 1]), ((3 : ℚ), (0 : ℚ))),
         (([0, 1], [1, 1]), ((2 : ℚ), (0 : ℚ))), (([0, 1], [0, 0]), ((1 : ℚ), (0 : ℚ)))] := by
    rw [List.destutter_cons_cons, if_pos (by decide : UCVE.dupDiff _ _),
      List.destutter'_cons_pos _ (by decide : UCVE.dupDiff _ _),
      List.destutter'_cons_pos _ (by decide : UCVE.dupDiff _ _),
      List.destutter'_nil]
  unfold UCVE.boundPrune
  rw [if_neg (by decide : ¬demoValues.length < 2), hsort, hdest]
  show (([0, 1], [1, 0]), ((5 : ℚ), (0 : ℚ))) :: UCVE.filterKeep _ _ = _
  rw [UCVE.filterKeep, if_neg (hfn _ _ 5 0 3 0 (by norm_num)),
    UCVE.filterKeep, if_neg (hfn _ _ 5 0 2 0 (by norm_num)),
    UCVE.filterKeep, if_neg (hfn _ _ 5 0 1 0 (by norm_num)),
    UCVE.filterKeep]

lemma demo_results :
    UCVE.combineFinals (UCVE.eliminate demoState demoState.agents.length).finalFactors
      (UCVE.eliminate demoState demoState.agents.length).logtA
    = [(([0, 1], [1, 0]), ((5 : ℚ), (0 : ℚ)))] := by
  rw [demo_final, demo_logtA, show (0 : ℝ) * 0.5 = 0 from by norm_num]
  show UCVE.boundPrune (UCVE.crossSum [] demoValues) 0 0 0 = _
  rw [UCVE.crossSum_nil_left]
  exact demo_prune

lemma demo_best_big :
    UCVE.dblLowest
      < UCVE.computeValue (((([0, 1], [1, 0]) : UCVE.PartialAction),
          ((5 : ℚ), (0 : ℚ))) : UCVE.Entry) 0 0 := by
  rw [UCVE.computeValue_zero]
  unfold UCVE.dblLowest
  have h : (0 : ℝ) < 2 ^ 1024 := by positivity
  have h5 : ((((5 : ℚ), (0 : ℚ)).1 : ℚ) : ℝ) = 5 := by norm_num
  rw [h5]
  linarith

lemma pickBestAux_cons_pos {e : Entry} {es : Entries} {m : ℝ} {b : Entry}
    (h : m < computeValue e 0 0) :
    pickBestAux (e :: es) m b = pickBestAux es (computeValue e 0 0) e := by
  conv_lhs => rw [pickBestAux]
  rw [if_pos h]

lemma pickBestAux_cons_neg {e : Entry} {es : Entries} {m : ℝ} {b : Entry}
    (h : ¬m < computeValue e 0 0) :
    pickBestAux (e :: es) m b = pickBestAux es m b := by
  conv_lhs => rw [pickBestAux]
  rw [if_neg h]

lemma pickBestAux_spec : ∀ (l : Entries) (m : ℝ) (b : Entry),
    (pickBestAux l m b = b ∧ ∀ e ∈ l, computeValue e 0 0 ≤ m) ∨
    (pickBestAux l m b ∈ l ∧ m ≤ computeValue (pickBestAux l m b) 0 0 ∧
      ∀ e ∈ l, computeValue e 0 0 ≤ computeValue (pickBestAux l m b) 0 0) := by
  intro l
  induction l with
  | nil =>
    intro m b
    left
    exact ⟨rfl, by simp⟩
  | cons e es ih =>
    intro m b
    by_cases h : m < computeValue e 0 0
    · rw [pickBestAux_cons_pos h]
      rcases ih (computeValue e 0 0) e with ⟨heq, hall⟩ | ⟨hmem, hge, hall⟩
      · right
        rw [heq]
        refine ⟨List.mem_cons_self _ _, le_of_lt h, ?_⟩
        intro e' he'
        rcases List.mem_cons.1 he' with rfl | he''
        · exact le_refl _
        · exact hall e' he''
      · right
        refine ⟨List.mem_cons_of_mem _ hmem, (le_of_lt h).trans hge, ?_⟩
        intro e' he'
        rcases List.mem_cons.1 he' with rfl | he''
        · exact hge
        · exact hall e' he''
    · rw [pickBestAux_cons_neg h]
      rcases ih m b with ⟨heq, hall⟩ | ⟨hmem, hge, hall⟩
      · left
        refine ⟨heq, ?_⟩
        intro e' he'
        rcases List.mem_cons.1 he' with rfl | he''
        · exact not_lt.1 h
        · exact hall e' he''
      · right
        refine ⟨List.mem_cons_of_mem _ hmem, hge, ?_⟩
        intro e' he'
        rcases List.mem_cons.1 he' with rfl | he''
        · exact (not_lt.1 h).trans hge
        · exact hall e' he''

lemma pickBest_spec {l : Entries} (h : ∃ e ∈ l, dblLowest < computeValue e 0 0) :
    pickBest l ∈ l ∧ ∀ e ∈ l, computeValue e 0 0 ≤ computeValue (pickBest l) 0 0 := by
  rcases pickBestAux_spec l dblLowest defaultEntry with ⟨_, hall⟩ | ⟨hmem, _, hall⟩
  · exfalso
    obtain ⟨e, he, hlt⟩ := h
    exact absurd (hall e he) (not_le.2 hlt)
  · exact ⟨hmem, hall⟩

lemma paStep_final_nonempty (A : List ℕ) (v : ℕ) (agentsV : List ℕ) (f0 : Factor)
    (rest : List Factor) (isFinal : Bool) (x_l x_u logtA : ℝ)
    (acc : Rules × List Entries) (asgn : List ℕ)
    (h : ∀ l ∈ acc.2, l ≠ []) :
    ∀ l ∈ (paStep A v agentsV f0 rest isFinal x_l x_u logtA acc asgn).2, l ≠ [] := by
  unfold paStep
  by_cases hv : valuesFor A v agentsV f0 rest x_l x_u logtA asgn = []
  · rw [if_pos hv]
    exact h
  · rw [if_neg hv]
    by_cases hf : isFinal = true
    · rw [if_pos hf]
      intro l hl
      rcases List.mem_append.1 hl with h1 | h1
      · exact h l h1
      · rcases List.mem_singleton.1 h1 with rfl
        exact hv
    · rw [if_neg hf]
      exact h

lemma processAssignments_final_nonempty (A : List ℕ) (v : ℕ) (agentsV : List ℕ)
    (f0 : Factor) (rest : List Factor) (isFinal : Bool) (x_l x_u logtA : ℝ) :
    ∀ (asgns : List (List ℕ)) (acc : Rules × List Entries),
    (∀ l ∈ acc.2, l ≠ []) →
    ∀ l ∈ (processAssignments A v agentsV f0 rest isFinal x_l x_u logtA asgns acc).2,
      l ≠ [] := by
  intro asgns
  induction asgns with
  | nil =>
    intro acc h l hl
    exact h l hl
  | cons asgn more ih =>
    intro acc h
    exact ih _ (paStep_final_nonempty A v agentsV f0 rest isFinal x_l x_u logtA acc asgn h)

lemma removeAgent_finalFactors_nonempty (s : UCVEState) (v : ℕ)
    (h : ∀ l ∈ s.finalFactors, l ≠ []) :
    ∀ l ∈ (removeAgent s v).finalFactors, l ≠ [] := by
  unfold removeAgent
  split
  · intro l hl
    exact h l hl
  · intro l hl
    rcases List.mem_append.1 hl with h1 | h1
    · exact h l h1
    · exact processAssignments_final_nonempty _ _ _ _ _ _ _ _ _ _ _
        (fun l' hl' => absurd hl' (List.not_mem_nil l')) l h1

lemma foldl_combine_ne_nil (logtA : ℝ) : ∀ (ffs : List Entries) (init : Entries),
    init ≠ [] → (∀ l ∈ ffs, l ≠ []) →
    ffs.foldl (fun results fv => boundPrune (crossSum results fv) 0 0 logtA) init ≠ [] := by
  intro ffs
  induction ffs with
  | nil =>
    intro init hinit _
    exact hinit
  | cons fv rest ih =>
    intro init hinit hall
    rw [List.foldl_cons]
    refine ih _ ?_ (fun l hl => hall l (List.mem_cons_of_mem _ hl))
    exact boundPrune_ne_nil
      (crossSum_ne_nil hinit (hall fv (List.mem_cons_self _ _))) 0 0 logtA

lemma combineFinals_ne_nil (ffs : List Entries) (logtA : ℝ)
    (h1 : ffs ≠ []) (h2 : ∀ l ∈ ffs, l ≠ []) : combineFinals ffs logtA ≠ [] := by
  cases ffs with
  | nil => exact absurd rfl h1
  | cons fv rest =>
    unfold combineFinals
    rw [List.foldl_cons]
    refine foldl_combine_ne_nil logtA rest _ ?_
      (fun l hl => h2 l (List.mem_cons_of_mem _ hl))
    refine boundPrune_ne_nil ?_ 0 0 logtA
    rw [crossSum_nil_left]
    exact h2 fv (List.mem_cons_self _ _)

end UCVE

/-- C2: the end-to-end scenario — two agents with two actions each, one
shared factor with deterministic payoffs `[[1,3],[5,2]]` indexed by
`(actionA, actionB)`, bonus 0 everywhere, exploration coefficient 0 —
`start()` returns the entry tagged with the joint action `(A=1, B=0)` and
mean value 5. -/
theorem start_demo_scenario :
    UCVE.start demoState
      = ((([0, 1], [1, 0]) : UCVE.PartialAction), ((5 : ℚ), (0 : ℚ))) := by
  have hne : (UCVE.eliminate demoState demoState.agents.length).finalFactors ≠ [] := by
    rw [UCVE.demo_final]
    simp
  unfold UCVE.start
  rw [if_neg hne, UCVE.demo_results]
  show UCVE.pickBestAux _ _ _ = _
  rw [UCVE.pickBestAux_cons_pos UCVE.demo_best_big]
  rfl

/-- C9: with no agents in the graph, elimination runs zero steps, no final
factors accumulate, and `start()` returns the value-initialized default
Result instead of failing. -/
theorem start_empty_graph (logtA : ℝ) (fs : List UCVE.Factor) :
    UCVE.start (UCVE.mkUCVE [] logtA fs) = UCVE.defaultEntry := rfl

/-- C7: whenever elimination leaves final factors, the entry `start()`
returns lies in the fully cross-summed and pruned combination of the final
factors and maximizes `computeValue(·, 0, 0)` over it — which is exactly the
plain mean payoff component, with no exploration term (for any bonus, since
the coefficient 0 annihilates it).  The existential hypothesis mirrors the
C++ selection loop: its running maximum starts at `lowest()`, so the chosen
iterator is initialized as soon as some candidate's value exceeds that
sentinel. -/
theorem start_greedy_selection (s : UCVE.UCVEState)
    (hne : (UCVE.eliminate s s.agents.length).finalFactors ≠ [])
    (hex : ∃ e ∈ UCVE.combineFinals
        (UCVE.eliminate s s.agents.length).finalFactors
        (UCVE.eliminate s s.agents.length).logtA,
      UCVE.dblLowest < UCVE.computeValue e 0 0) :
    UCVE.start s ∈ UCVE.combineFinals
        (UCVE.eliminate s s.agents.length).finalFactors
        (UCVE.eliminate s s.agents.length).logtA ∧
    (∀ e ∈ UCVE.combineFinals
        (UCVE.eliminate s s.agents.length).finalFactors
        (UCVE.eliminate s s.agents.length).logtA,
      UCVE.computeValue e 0 0 ≤ UCVE.computeValue (UCVE.start s) 0 0) ∧
    ∀ e : UCVE.Entry, UCVE.computeValue e 0 0 = (e.2.1 : ℝ) := by
  have hstart : UCVE.start s = UCVE.pickBest (UCVE.combineFinals
      (UCVE.eliminate s s.agents.length).finalFactors
      (UCVE.eliminate s s.agents.length).logtA) := by
    unfold UCVE.start
    rw [if_neg hne]
  rw [hstart]
  rcases UCVE.pickBest_spec hex with ⟨hmem, hall⟩
  exact ⟨hmem, hall, fun e => UCVE.computeValue_zero e⟩

/-- C7 witness: the selection theorem applied to the concrete end-to-end
scenario state. -/
theorem start_greedy_selection_witness :
    UCVE.start demoState ∈ UCVE.combineFinals
      (UCVE.eliminate demoState demoState.agents.length).finalFactors
      (UCVE.eliminate demoState demoState.agents.length).logtA :=
  (start_greedy_selection demoState
    (by rw [UCVE.demo_final]; simp)
    (by rw [UCVE.demo_results]
        exact ⟨_, List.mem_cons_self _ _, UCVE.demo_best_big⟩)).1

/-- C10: the non-emptiness chain making the final selection well-defined:
(a) `removeAgent` appends only non-empty Entries collections to the
final-factor accumulator (appends are guarded by size checks); (b)
`boundPrune` on a non-empty range retains at least one element; (c) hence a
non-empty accumulator of non-empty collections yields a non-empty combined
results list in `start()`; and (d) the maximizing-entry selection returns an
element of that list as soon as some candidate's value exceeds the
`lowest()` sentinel that initializes the running maximum. -/
theorem elimination_nonempty_invariant :
    (∀ (s : UCVE.UCVEState) (v : ℕ), (∀ l ∈ s.finalFactors, l ≠ []) →
      ∀ l ∈ (UCVE.removeAgent s v).finalFactors, l ≠ []) ∧
    (∀ (l : UCVE.Entries) (x_l x_u logtA : ℝ), l ≠ [] →
      UCVE.boundPrune l x_l x_u logtA ≠ []) ∧
    (∀ (ffs : List UCVE.Entries) (logtA : ℝ), ffs ≠ [] → (∀ l ∈ ffs, l ≠ []) →
      UCVE.combineFinals ffs logtA ≠ []) ∧
    ∀ l : UCVE.Entries, (∃ e ∈ l, UCVE.dblLowest < UCVE.computeValue e 0 0) →
      UCVE.pickBest l ∈ l :=
  ⟨fun s v h => UCVE.removeAgent_finalFactors_nonempty s v h,
   fun l x_l x_u logtA h => UCVE.boundPrune_ne_nil h x_l x_u logtA,
   fun ffs logtA h1 h2 => UCVE.combineFinals_ne_nil ffs logtA h1 h2,
   fun l h => (UCVE.pickBest_spec h).1⟩

/-- C10 witness: the invariant applied at concrete inputs — the scenario
state for (a), a singleton list for (b) and (c), and the scenario's best
entry for (d). -/
theorem elimination_nonempty_invariant_witness :
    (∀ l ∈ (UCVE.removeAgent demoState 1).finalFactors, l ≠ []) ∧
    UCVE.boundPrune [UCVE.defaultEntry] 0 0 0 ≠ [] ∧
    UCVE.combineFinals [[UCVE.defaultEntry]] 0 ≠ [] ∧
    UCVE.pickBest [(((([0, 1], [1, 0]) : UCVE.PartialAction),
        ((5 : ℚ), (0 : ℚ))) : UCVE.Entry)]
      ∈ [(((([0, 1], [1, 0]) : UCVE.PartialAction), ((5 : ℚ), (0 : ℚ))) : UCVE.Entry)] :=
  ⟨elimination_nonempty_invariant.1 demoState 1
      (fun l hl => absurd hl (List.not_mem_nil l)),
   elimination_nonempty_invariant.2.1 [UCVE.defaultEntry] 0 0 0 (by decide),
   elimination_nonempty_invariant.2.2.1 [[UCVE.defaultEntry]] 0 (by decide)
      (by intro l hl; rw [List.mem_singleton.1 hl]; decide),
   elimination_nonempty_invariant.2.2.2 _
      ⟨_, List.mem_cons_self _ _, UCVE.demo_best_big⟩⟩
